import Mathlib

/-!
Verification of the GeminiKeyManagement reconciliation core.

A shallow embedding of the repository's ledger data model
(`src/gemini_key_manager/database.py`, `types.py`), the cloud capability
layer (`src/gemini_key_manager/gcp_api.py`) and the per-project actions
(`src/gemini_key_manager/actions.py`).  The Python dictionaries of the
JSON ledger become Lean structures; the Google-cloud clients become an
explicit environment record of responses, and every operation also
returns the list of cloud calls it issued so that effect-freedom claims
(dry-run mode) can be stated.  Timestamps are carried as opaque strings
(the ISO rendering produced by `datetime.isoformat()`), with the current
time passed in explicitly.
-/

namespace GeminiKM

/-- One `{service, methods}` element of `restrictions.api_targets` in a
ledger key record (`database.py`, `add_key_to_database`). -/
structure ApiTargetEntry where
  service : String
  methods : List String
deriving DecidableEq

/-- The `key_details` object of a ledger `ApiKeyRecord`. -/
structure KeyDetails where
  key_string : String
  key_id : String
  key_name : String
  display_name : String
  creation_timestamp_utc : String
  last_updated_timestamp_utc : String
deriving DecidableEq

/-- A ledger API-key record: `{key_details, restrictions, state}`. -/
structure ApiKeyRecord where
  key_details : KeyDetails
  api_targets : List ApiTargetEntry
  state : String
deriving DecidableEq

/-- The `project_info` object of a ledger project entry. -/
structure ProjectInfo where
  project_id : String
  project_name : String
  project_number : String
  state : String
deriving DecidableEq

/-- A ledger project entry: `{project_info, api_keys}`. -/
structure ProjectEntry where
  project_info : ProjectInfo
  api_keys : List ApiKeyRecord
deriving DecidableEq

/-- A ledger account entry (`account_details.email` plus its projects);
the authentication details are irrelevant to the claims and omitted. -/
structure Account where
  email : String
  projects : List ProjectEntry
deriving DecidableEq

/-- A cloud-side key as returned by `list_keys` (no secret material);
`restrictions` is the list of restricted target services. -/
structure CloudKey where
  uid : String
  name : String
  display_name : String
  create_time : String
  update_time : String
  restrictions : List String
deriving DecidableEq

/-- A cloud-side project resource (`resourcemanager_v3.Project`). -/
structure CloudProject where
  project_id : String
  display_name : String
  name : String
  state : String
deriving DecidableEq

/-- A hydrated key: the shape shared by `actions.TempKey` and the full
`api_keys_v2.Key` returned by key creation (secret string included). -/
structure TempKey where
  key_string : String
  uid : String
  name : String
  display_name : String
  create_time : String
  update_time : String
  restrictions : List String
deriving DecidableEq

/-- The two classified Google API failures the code distinguishes
(`google_exceptions.PermissionDenied` and the general
`google_exceptions.GoogleAPICallError`). -/
inductive GError where
  | permissionDenied
  | apiCallError
deriving DecidableEq

/-- A cloud capability call issued during a run. -/
inductive CloudCall where
  | listKeysCall (parent : String)
  | getKeyStringCall (name : String)
  | deleteKeyCall (name : String)
  | createKeyCall (project_id : String)
  | enableApiCall (project_id : String)
deriving DecidableEq

/-- Whether a cloud call mutates cloud state (key create, key delete,
API enable); listing keys and fetching a key string are read-only. -/
def isMutatingCall : CloudCall → Bool
  | CloudCall.deleteKeyCall _ => true
  | CloudCall.createKeyCall _ => true
  | CloudCall.enableApiCall _ => true
  | _ => false

/-- The environment of cloud responses a run observes: one response per
capability, fixed for the duration ("cloud state unchanged"). -/
structure CloudEnv where
  listKeys : String → Except GError (List CloudKey)
  getKeyString : String → Except GError String
  deleteKey : String → Except GError Unit
  enableService : String → Except GError Unit
  createKey : String → Except GError TempKey

/-- The two per-project actions dispatched by `process_account`. -/
inductive Action where
  | create
  | delete
deriving DecidableEq

/-! ## Configuration constants (`config.py`) -/

def GEMINI_API_KEY_DISPLAY_NAME : String := "Gemini API Key"

def GENERATIVE_LANGUAGE_API_KEY_DISPLAY_NAME : String :=
  "Generative Language API Key"

def GENERATIVE_LANGUAGE_API : String := "generativelanguage.googleapis.com"

/-! ## Ledger store operations (`database.py`) -/

/-- The key ids of a list of ledger records. -/
def keyIds (keys : List ApiKeyRecord) : List String :=
  keys.map (fun r => r.key_details.key_id)

/-- `project.name.split('/')[-1]`: the suffix after the last slash (the
whole string when no slash occurs, empty when the string ends in one),
computed by a character fold that resets at every slash. -/
def lastPathSegment (name : String) : String :=
  String.mk (name.toList.foldl
    (fun acc c => if c = '/' then [] else acc ++ [c]) [])

/-- The `project_info` built from a cloud project, as in
`add_key_to_database` and `reconcile_project_keys`. -/
def mkProjectInfo (project : CloudProject) : ProjectInfo :=
  { project_id := project.project_id
    project_name := project.display_name
    project_number := lastPathSegment project.name
    state := project.state }

/-- The fresh ACTIVE ledger record built from a hydrated key
(`new_key_entry` in `add_key_to_database`). -/
def mkNewKeyEntry (k : TempKey) : ApiKeyRecord :=
  { key_details :=
      { key_string := k.key_string
        key_id := k.uid
        key_name := k.name
        display_name := k.display_name
        creation_timestamp_utc := k.create_time
        last_updated_timestamp_utc := k.update_time }
    api_targets := k.restrictions.map (fun s => ⟨s, []⟩)
    state := "ACTIVE" }

/-- Whether some project entry carries the given project id. -/
def hasProject (ps : List ProjectEntry) (pid : String) : Bool :=
  ps.any (fun pe => pe.project_info.project_id == pid)

/-- The first project entry with the given id, as fetched by the
`next((p for p in account_entry["projects"] ...), None)` pattern. -/
def findProjectEntry (ps : List ProjectEntry) (pid : String) :
    Option ProjectEntry :=
  ps.find? (fun pe => pe.project_info.project_id == pid)

/-- Rewrite the api_keys of the first project entry matching `pid`
(the Python code mutates the object returned by `next(...)`). -/
def updateFirstProject (ps : List ProjectEntry) (pid : String)
    (f : List ApiKeyRecord → List ApiKeyRecord) : List ProjectEntry :=
  match ps with
  | [] => []
  | pe :: rest =>
    if pe.project_info.project_id == pid then
      { pe with api_keys := f pe.api_keys } :: rest
    else
      pe :: updateFirstProject rest pid f

/-- `database.add_key_to_database`: find or create the project entry,
then append a fresh ACTIVE record unless a record with the same
`key_id` already exists in that project's list. -/
def add_key_to_database (acct : Account) (project : CloudProject)
    (k : TempKey) : Account :=
  let pid := project.project_id
  if hasProject acct.projects pid then
    { acct with
        projects := updateFirstProject acct.projects pid (fun keys =>
          if keys.any (fun r => r.key_details.key_id == k.uid) then keys
          else keys ++ [mkNewKeyEntry k]) }
  else
    { acct with
        projects := acct.projects ++
          [{ project_info := mkProjectInfo project
             api_keys := [mkNewKeyEntry k] }] }

/-- `database.remove_keys_from_database`: drop from the (first) matching
project entry every record whose `key_id` is among the deleted uids;
no matching project entry means no change. -/
def remove_keys_from_database (acct : Account) (pid : String)
    (deleted_keys_uids : List String) : Account :=
  if hasProject acct.projects pid then
    { acct with
        projects := updateFirstProject acct.projects pid (fun keys =>
          keys.filter (fun r =>
            !(deleted_keys_uids.contains r.key_details.key_id))) }
  else
    acct

/-! ## Cloud capability layer (`gcp_api.py`) -/

/-- `gcp_api.enable_api`: in dry-run, log only and report success; else
issue the enable call, mapping both failure classes to `false`.  (The
`TermsOfServiceNotAcceptedError` branch of the interactive retry is
modelled separately as the gate transition system below: nothing in the
repository raises that exception, so `enable_api` itself is total.) -/
def enable_api (project_id : String) (env : CloudEnv) (dry_run : Bool) :
    Bool × List CloudCall :=
  if dry_run then (true, [])
  else
    match env.enableService project_id with
    | Except.ok _ => (true, [CloudCall.enableApiCall project_id])
    | Except.error _ => (false, [CloudCall.enableApiCall project_id])

/-- `actions._enable_api_with_interactive_retry`, sequentially: since no
code in the repository raises `TermsOfServiceNotAcceptedError`, the
retry loop reduces to a single `enable_api` attempt (the concurrent
gate behaviour is verified on the `Gate` transition system below). -/
def enable_api_with_interactive_retry (project_id : String)
    (env : CloudEnv) (dry_run : Bool) : Bool × List CloudCall :=
  enable_api project_id env dry_run

/-- The synthetic key returned by `create_api_key` in dry-run mode. -/
def mockDryRunKey (project_id : String) (now : String) : TempKey :=
  { key_string := "mock-key-string-for-dry-run"
    uid := "mock-key-id"
    name := "projects/" ++ project_id ++ "/locations/global/keys/mock-key-id"
    display_name := GEMINI_API_KEY_DISPLAY_NAME
    create_time := now
    update_time := now
    restrictions := [GENERATIVE_LANGUAGE_API] }

/-- `gcp_api.create_api_key`: dry-run returns the fixed mock key without
any cloud call; otherwise the create call is issued, with both failure
classes collapsing to `none`. -/
def create_api_key (project_id : String) (env : CloudEnv)
    (dry_run : Bool) (now : String) : Option TempKey × List CloudCall :=
  if dry_run then (some (mockDryRunKey project_id now), [])
  else
    match env.createKey project_id with
    | Except.ok k => (some k, [CloudCall.createKeyCall project_id])
    | Except.error _ => (none, [CloudCall.createKeyCall project_id])

/-- The body of `delete_api_keys` once the key listing has succeeded:
select the keys whose display name is exactly
`GEMINI_API_KEY_DISPLAY_NAME`; none found means an early empty return.
In dry-run every selected uid is reported without a delete call;
otherwise a uid is reported only when its delete call succeeded
(a failing delete call skips just that key). -/
def deleteWithKeys (project_id : String) (env : CloudEnv)
    (dry_run : Bool) (keys : List CloudKey) :
    List String × List CloudCall :=
  let keys_to_delete :=
    keys.filter (fun k => k.display_name == GEMINI_API_KEY_DISPLAY_NAME)
  if keys_to_delete.isEmpty then
    ([], [CloudCall.listKeysCall project_id])
  else if dry_run then
    (keys_to_delete.map (fun k => k.uid),
     [CloudCall.listKeysCall project_id])
  else
    (keys_to_delete.filterMap (fun k =>
       match env.deleteKey k.name with
       | Except.ok _ => some k.uid
       | Except.error _ => none),
     CloudCall.listKeysCall project_id ::
       keys_to_delete.map (fun k => CloudCall.deleteKeyCall k.name))

/-- `gcp_api.delete_api_keys`: list the project's keys and delete the
managed ones (`deleteWithKeys`).  A failure of the listing itself
returns the empty list. -/
def delete_api_keys (project_id : String) (env : CloudEnv)
    (dry_run : Bool) : List String × List CloudCall :=
  match env.listKeys project_id with
  | Except.error _ => ([], [CloudCall.listKeysCall project_id])
  | Except.ok keys => deleteWithKeys project_id env dry_run keys

/-! ## Reconciliation (`actions.reconcile_project_keys`) -/

/-- Python `dict` built by `{key.uid: key for key in cloud_keys_list}`:
first-insertion order of uids, last assignment wins. -/
def pyDedupKeysLastWins (ks : List CloudKey) : List CloudKey :=
  ks.foldl (fun acc k =>
    if acc.any (fun k0 => k0.uid == k.uid) then
      acc.map (fun k0 => if k0.uid == k.uid then k else k0)
    else acc ++ [k]) []

/-- Python `dict` key sequence for string keys: order of first
occurrence, duplicates dropped. -/
def pyDictKeys (l : List String) : List String :=
  l.foldl (fun acc u => if acc.contains u then acc else acc ++ [u]) []

/-- The `TempKey` hydration of a listed cloud key with its fetched
secret string (`actions.TempKey.__init__`). -/
def mkTempKey (k : CloudKey) (key_string : String) : TempKey :=
  { key_string := key_string
    uid := k.uid
    name := k.name
    display_name := k.display_name
    create_time := k.create_time
    update_time := k.update_time
    restrictions := k.restrictions }

/-- The in-place mutation of a ledger-only record: state to INACTIVE and
`last_updated_timestamp_utc` refreshed. -/
def deactRecord (r : ApiKeyRecord) (now : String) : ApiKeyRecord :=
  { r with
      state := "INACTIVE"
      key_details := { r.key_details with last_updated_timestamp_utc := now } }

/-- Mutate the last record carrying `uid` (the record the Python
`local_keys` dict references when the list held duplicates). -/
def updateLast : List ApiKeyRecord → String → String → List ApiKeyRecord
  | [], _, _ => []
  | r :: rest, uid, now =>
    if (keyIds rest).contains uid then r :: updateLast rest uid now
    else if r.key_details.key_id == uid then deactRecord r now :: rest
    else r :: updateLast rest uid now

/-- The api_keys of the first entry for `pid`, or `[]`. -/
def entryKeys (acct : Account) (pid : String) : List ApiKeyRecord :=
  match findProjectEntry acct.projects pid with
  | some pe => pe.api_keys
  | none => []

/-- The cloud-only insertion step of reconciliation: skip uids already
in the ledger, otherwise fetch the key string and insert (permission or
API failure on the fetch skips just that key). -/
def reconcileAddStep (project : CloudProject) (env : CloudEnv)
    (localIds : List String) (acct : Account) (k : CloudKey) : Account :=
  if localIds.contains k.uid then acct
  else
    match env.getKeyString k.name with
    | Except.ok s => add_key_to_database acct project (mkTempKey k s)
    | Except.error _ => acct

/-- The body of `reconcile_project_keys` once the key listing has
succeeded: flag whether a key with either managed display name exists;
create the ledger project entry if absent; insert cloud-only keys
(hydrating each via `get_key_string`); mark ledger-only keys INACTIVE
with a refreshed timestamp.  Dry-run skips both mutation phases. -/
def reconcileWithKeys (project : CloudProject) (env : CloudEnv)
    (dry_run : Bool) (acct : Account) (now : String)
    (cloud_keys_list : List CloudKey) : Bool × Account × List CloudCall :=
  let pid := project.project_id
  let gemini_key_exists := cloud_keys_list.any (fun k =>
    k.display_name == GEMINI_API_KEY_DISPLAY_NAME ||
    k.display_name == GENERATIVE_LANGUAGE_API_KEY_DISPLAY_NAME)
  let acct1 :=
    if hasProject acct.projects pid then acct
    else { acct with projects := acct.projects ++
             [{ project_info := mkProjectInfo project, api_keys := [] }] }
  let localIds := keyIds (entryKeys acct1 pid)
  let cloudDict := pyDedupKeysLastWins cloud_keys_list
  let cloudUids := cloudDict.map (fun k => k.uid)
  let acct2 :=
    if dry_run then acct1
    else cloudDict.foldl (reconcileAddStep project env localIds) acct1
  let fetchCalls :=
    if dry_run then []
    else (cloudDict.filter (fun k => !(localIds.contains k.uid))).map
      (fun k => CloudCall.getKeyStringCall k.name)
  let localOnly :=
    (pyDictKeys localIds).filter (fun u => !(cloudUids.contains u))
  let acct3 :=
    if dry_run then acct2
    else { acct2 with projects := (updateFirstProject acct2.projects pid
             (fun keys => localOnly.foldl
               (fun ks u => updateLast ks u now) keys)) }
  (gemini_key_exists, acct3, CloudCall.listKeysCall pid :: fetchCalls)

/-- `actions.reconcile_project_keys`: list cloud keys and reconcile
(`reconcileWithKeys`).  A failure of the listing (permission denied or
API error) returns `false` with the account untouched.  Returns
(managed-key-exists flag, updated account, cloud calls issued). -/
def reconcile_project_keys (project : CloudProject) (env : CloudEnv)
    (dry_run : Bool) (acct : Account) (now : String) :
    Bool × Account × List CloudCall :=
  match env.listKeys project.project_id with
  | Except.error _ =>
    (false, acct, [CloudCall.listKeysCall project.project_id])
  | Except.ok cloud_keys_list =>
    reconcileWithKeys project env dry_run acct now cloud_keys_list

/-! ## Per-project action dispatch (`actions.process_project_for_action`) -/

/-- `actions.process_project_for_action`: for `create`, reconcile and
stop if a managed key exists, else enable the API and create-and-record
a key; for `delete`, call the deletion capability and remove the
returned uids from the ledger (skipping the removal when none were
deleted).  Returns the updated account and the cloud calls issued. -/
def process_project_for_action (project : CloudProject)
    (action : Action) (dry_run : Bool) (env : CloudEnv)
    (acct : Account) (now : String) : Account × List CloudCall :=
  let pid := project.project_id
  match action with
  | Action.create =>
    let r := reconcile_project_keys project env dry_run acct now
    if r.1 then (r.2.1, r.2.2)
    else
      let e := enable_api_with_interactive_retry pid env dry_run
      if e.1 then
        let c := create_api_key pid env dry_run now
        match c.1 with
        | some k =>
          (add_key_to_database r.2.1 project k, r.2.2 ++ e.2 ++ c.2)
        | none => (r.2.1, r.2.2 ++ e.2 ++ c.2)
      else (r.2.1, r.2.2 ++ e.2)
  | Action.delete =>
    let d := delete_api_keys pid env dry_run
    if d.1.isEmpty then (acct, d.2)
    else (remove_keys_from_database acct pid d.1, d.2)

/-- The run-level persistence gate of `main.py`
(`if not args.dry_run: save_keys_to_json(...)`). -/
def mainPersistsLedger (dry_run : Bool) : Bool :=
  !dry_run

/-! ## The ToS acceptance gate (`actions.TosAcceptanceHelper` and the
`except TermsOfServiceNotAcceptedError` branch of
`_enable_api_with_interactive_retry`)

The interleaving of `n` per-project workers that have all caught the
terms-not-accepted failure is modelled as a transition system.  The
`with tos_helper.lock:` critical section of each worker is one atomic
transition (the lock serialises those sections); the shared state is
the helper's `prompt_in_progress` flag and one-shot `prompted_event`,
plus a ghost counter of prompts issued. -/

/-- Local state of one worker inside the ToS handling branch:
`caughtToS` — about to enter the lock-protected section;
`waiting` — past the critical section, at `prompted_event.wait()`;
`retrying` — past the wait, looping back to the enablement attempt. -/
inductive WorkerState where
  | caughtToS
  | waiting
  | retrying
deriving DecidableEq

/-- Shared gate state for `n` workers. -/
structure GateState (n : Nat) where
  prompt_in_progress : Bool
  event_set : Bool
  prompt_count : Nat
  workers : Fin n → WorkerState

/-- All workers have just caught the failure; helper fields as set by
`TosAcceptanceHelper.__init__`. -/
def gateInit (n : Nat) : GateState n :=
  { prompt_in_progress := false
    event_set := false
    prompt_count := 0
    workers := fun _ => WorkerState.caughtToS }

/-- One atomic step of a worker `i`:
`prompt` — the critical section when `prompt_in_progress` is false: set
the flag, issue the prompt (counted), set the event, fall through to
the (already satisfied) wait;
`observe` — the critical section when the flag is already true: do
nothing and fall through to the wait;
`proceed` — leave `prompted_event.wait()` once the event is set. -/
inductive GateStep {n : Nat} : GateState n → GateState n → Prop where
  | prompt (s : GateState n) (i : Fin n)
      (hw : s.workers i = WorkerState.caughtToS)
      (hp : s.prompt_in_progress = false) :
      GateStep s
        { prompt_in_progress := true
          event_set := true
          prompt_count := s.prompt_count + 1
          workers := Function.update s.workers i WorkerState.waiting }
  | observe (s : GateState n) (i : Fin n)
      (hw : s.workers i = WorkerState.caughtToS)
      (hp : s.prompt_in_progress = true) :
      GateStep s
        { s with workers := Function.update s.workers i WorkerState.waiting }
  | proceed (s : GateState n) (i : Fin n)
      (hw : s.workers i = WorkerState.waiting)
      (he : s.event_set = true) :
      GateStep s
        { s with workers := Function.update s.workers i WorkerState.retrying }

/-- States reachable from the all-caught initial state. -/
inductive GateReachable (n : Nat) : GateState n → Prop where
  | init : GateReachable n (gateInit n)
  | step {s s' : GateState n} : GateReachable n s → GateStep s s' →
      GateReachable n s'

/-- The inductive gate invariant: the counter only moves to one when the
flag is raised, never beyond one, the flag implies the one-shot event,
and any waiting worker has the event available. -/
def GateInv {n : Nat} (s : GateState n) : Prop :=
  (s.prompt_in_progress = false → s.prompt_count = 0) ∧
  s.prompt_count ≤ 1 ∧
  (s.prompt_in_progress = true → s.event_set = true) ∧
  (∀ j, s.workers j = WorkerState.waiting → s.event_set = true)

/-- A gate state after the single prompt has fired: flag raised, event
set, exactly one prompt counted, workers as given. -/
def gateAll (n : Nat) (f : Fin n → WorkerState) : GateState n :=
  { prompt_in_progress := true
    event_set := true
    prompt_count := 1
    workers := f }

/-! ## The per-project unique-key_id ledger invariant (spec §3) -/

/-- Every project entry's key list carries pairwise-distinct key ids. -/
def DbInvariant (acct : Account) : Prop :=
  ∀ pe ∈ acct.projects, (keyIds pe.api_keys).Nodup

/-! ## Closed forms used to state the reconciliation lemmas -/

/-- The per-record effect of a deactivation pass over a list of uids. -/
def deactIfIn (us : List String) (now : String) (r : ApiKeyRecord) :
    ApiKeyRecord :=
  if us.contains r.key_details.key_id then deactRecord r now else r

/-- The records the cloud-only phase of reconciliation inserts: one
ACTIVE record per listed key whose uid is not already in the ledger and
whose key-string fetch succeeds. -/
def fetchAddedKeys (env : CloudEnv) (L : List String)
    (ds : List CloudKey) : List ApiKeyRecord :=
  ds.filterMap (fun k =>
    if L.contains k.uid then none
    else
      match env.getKeyString k.name with
      | Except.ok s => some (mkNewKeyEntry (mkTempKey k s))
      | Except.error _ => none)

/-- The managed-key flag computed by reconciliation: some listed key
carries one of the two recognized display names. -/
def managedFlag (ks : List CloudKey) : Bool :=
  ks.any (fun k =>
    k.display_name == GEMINI_API_KEY_DISPLAY_NAME ||
    k.display_name == GENERATIVE_LANGUAGE_API_KEY_DISPLAY_NAME)

/-- The ledger-only uids reconciliation deactivates. -/
def localOnlyOf (L cloudUids : List String) : List String :=
  (pyDictKeys L).filter (fun u => !(cloudUids.contains u))

/-- The observable shape of a project entry used to state that a second
reconciliation adds no records and flips no state: its project info,
its key-id sequence and its state sequence. -/
def entrySummary (pe : ProjectEntry) :
    ProjectInfo × List String × List String :=
  (pe.project_info, keyIds pe.api_keys, pe.api_keys.map (fun r => r.state))

/-! ## Concrete sample data for witnesses and counterexamples -/

/-- A sample cloud project `p1`. -/
def wProj : CloudProject :=
  { project_id := "p1"
    display_name := "Project1"
    name := "projects/111"
    state := "ACTIVE" }

/-- A sample managed cloud key `k1` with the reserved display name. -/
def wKeyG : CloudKey :=
  { uid := "k1"
    name := "projects/p1/locations/global/keys/k1"
    display_name := GEMINI_API_KEY_DISPLAY_NAME
    create_time := "t0"
    update_time := "t0"
    restrictions := [GENERATIVE_LANGUAGE_API] }

/-- A sample cloud key `k2` with the other recognized display name. -/
def wKeyGL : CloudKey :=
  { uid := "k2"
    name := "projects/p1/locations/global/keys/k2"
    display_name := GENERATIVE_LANGUAGE_API_KEY_DISPLAY_NAME
    create_time := "t0"
    update_time := "t0"
    restrictions := [GENERATIVE_LANGUAGE_API] }

/-- The ACTIVE ledger record for `k1`. -/
def wRecK1 : ApiKeyRecord := mkNewKeyEntry (mkTempKey wKeyG "secret1")

/-- The ledger entry for `p1` holding the `k1` record. -/
def wEntryK1 : ProjectEntry :=
  { project_info := mkProjectInfo wProj, api_keys := [wRecK1] }

/-- An account with an empty ledger. -/
def wAcctEmpty : Account :=
  { email := "user@example.com", projects := [] }

/-- An account whose ledger holds `p1` with the `k1` record. -/
def wAcctK1 : Account :=
  { email := "user@example.com", projects := [wEntryK1] }

/-- A cloud environment reporting no keys for any project. -/
def wEnvNoKeys : CloudEnv :=
  { listKeys := fun _ => Except.ok []
    getKeyString := fun _ => Except.error GError.apiCallError
    deleteKey := fun _ => Except.ok ()
    enableService := fun _ => Except.ok ()
    createKey := fun _ => Except.error GError.apiCallError }

/-- A cloud environment reporting exactly the key `k1`. -/
def wEnvK1 : CloudEnv :=
  { listKeys := fun _ => Except.ok [wKeyG]
    getKeyString := fun _ => Except.ok "secret1"
    deleteKey := fun _ => Except.ok ()
    enableService := fun _ => Except.ok ()
    createKey := fun _ => Except.error GError.apiCallError }

/-- A cloud environment reporting both `k1` and `k2`. -/
def wEnvBoth : CloudEnv :=
  { listKeys := fun _ => Except.ok [wKeyG, wKeyGL]
    getKeyString := fun _ => Except.ok "secret1"
    deleteKey := fun _ => Except.ok ()
    enableService := fun _ => Except.ok ()
    createKey := fun _ => Except.error GError.apiCallError }

/-- A cloud environment whose key listing is permission-denied. -/
def wEnvFail : CloudEnv :=
  { listKeys := fun _ => Except.error GError.permissionDenied
    getKeyString := fun _ => Except.error GError.apiCallError
    deleteKey := fun _ => Except.ok ()
    enableService := fun _ => Except.ok ()
    createKey := fun _ => Except.error GError.apiCallError }

/-! ## Structural lemmas about the ledger operations -/

theorem updateFirstProject_id (ps : List ProjectEntry) (pid : String) :
    updateFirstProject ps pid (fun keys => keys) = ps := by
  induction ps with
  | nil => rfl
  | cons pe rest ih =>
    unfold updateFirstProject
    by_cases h : pe.project_info.project_id == pid
    · simp [h]
    · simp [h, ih]

theorem updateFirstProject_comp (ps : List ProjectEntry) (pid : String)
    (f g : List ApiKeyRecord → List ApiKeyRecord) :
    updateFirstProject (updateFirstProject ps pid f) pid g =
      updateFirstProject ps pid (fun keys => g (f keys)) := by
  induction ps with
  | nil => rfl
  | cons pe rest ih =>
    unfold updateFirstProject
    by_cases h : pe.project_info.project_id == pid
    · simp [h, updateFirstProject]
    · simp [h, updateFirstProject, ih]

theorem find_updateFirstProject (ps : List ProjectEntry) (pid : String)
    (f : List ApiKeyRecord → List ApiKeyRecord) :
    findProjectEntry (updateFirstProject ps pid f) pid =
      (findProjectEntry ps pid).map
        (fun pe => { pe with api_keys := f pe.api_keys }) := by
  induction ps with
  | nil => rfl
  | cons pe rest ih =>
    unfold updateFirstProject findProjectEntry
    by_cases h : pe.project_info.project_id == pid
    · simp [List.find?, h]
    · simpa [List.find?, h, findProjectEntry] using ih

theorem updateFirstProject_congr (ps : List ProjectEntry) (pid : String)
    {pe : ProjectEntry} {f g : List ApiKeyRecord → List ApiKeyRecord}
    (hf : findProjectEntry ps pid = some pe)
    (hfg : f pe.api_keys = g pe.api_keys) :
    updateFirstProject ps pid f = updateFirstProject ps pid g := by
  induction ps with
  | nil => simp [findProjectEntry] at hf
  | cons pe0 rest ih =>
    unfold updateFirstProject
    by_cases h : pe0.project_info.project_id == pid
    · have : pe0 = pe := by
        simpa [findProjectEntry, List.find?, h] using hf
      subst this
      simp [h, hfg]
    · have hf' : findProjectEntry rest pid = some pe := by
        simpa [findProjectEntry, List.find?, h] using hf
      simp [h, ih hf']

theorem updateFirstProject_eq_self (ps : List ProjectEntry) (pid : String)
    {pe : ProjectEntry} {f : List ApiKeyRecord → List ApiKeyRecord}
    (hf : findProjectEntry ps pid = some pe)
    (hfix : f pe.api_keys = pe.api_keys) :
    updateFirstProject ps pid f = ps := by
  calc updateFirstProject ps pid f
      = updateFirstProject ps pid (fun keys => keys) :=
        updateFirstProject_congr ps pid hf hfix
    _ = ps := updateFirstProject_id ps pid

theorem hasProject_eq_isSome (ps : List ProjectEntry) (pid : String) :
    hasProject ps pid = (findProjectEntry ps pid).isSome := by
  induction ps with
  | nil => rfl
  | cons pe rest ih =>
    unfold hasProject findProjectEntry
    by_cases h : pe.project_info.project_id == pid
    · simp [List.any, List.find?, h]
    · simpa [List.any, List.find?, h, hasProject, findProjectEntry] using ih

theorem hasProject_of_find {ps : List ProjectEntry} {pid : String}
    {pe : ProjectEntry} (hf : findProjectEntry ps pid = some pe) :
    hasProject ps pid = true := by
  rw [hasProject_eq_isSome, hf]
  rfl

theorem find_eq_none_of_not_has {ps : List ProjectEntry} {pid : String}
    (h : hasProject ps pid = false) : findProjectEntry ps pid = none := by
  rw [hasProject_eq_isSome] at h
  cases hf : findProjectEntry ps pid with
  | none => rfl
  | some pe => rw [hf] at h; simp at h

theorem find_append_right {ps : List ProjectEntry} {pid : String}
    (h : hasProject ps pid = false) (pe : ProjectEntry)
    (hpe : (pe.project_info.project_id == pid) = true) :
    findProjectEntry (ps ++ [pe]) pid = some pe := by
  have hn := find_eq_none_of_not_has h
  unfold findProjectEntry at hn ⊢
  rw [List.find?_append, hn]
  simp [List.find?, hpe]

theorem updateFirstProject_map_info (ps : List ProjectEntry) (pid : String)
    (f : List ApiKeyRecord → List ApiKeyRecord) :
    (updateFirstProject ps pid f).map (fun pe => pe.project_info) =
      ps.map (fun pe => pe.project_info) := by
  induction ps with
  | nil => rfl
  | cons pe rest ih =>
    unfold updateFirstProject
    by_cases h : pe.project_info.project_id == pid
    · simp [h]
    · simp [h, ih]

theorem mem_updateFirstProject {ps : List ProjectEntry} {pid : String}
    {f : List ApiKeyRecord → List ApiKeyRecord} {pe' : ProjectEntry}
    (h : pe' ∈ updateFirstProject ps pid f) :
    pe' ∈ ps ∨ ∃ pe ∈ ps, pe' = { pe with api_keys := f pe.api_keys } := by
  induction ps with
  | nil => simp [updateFirstProject] at h
  | cons pe0 rest ih =>
    unfold updateFirstProject at h
    by_cases hh : pe0.project_info.project_id == pid
    · rw [if_pos hh] at h
      rcases List.mem_cons.mp h with h1 | h1
      · exact Or.inr ⟨pe0, List.mem_cons_self _ _, h1⟩
      · exact Or.inl (List.mem_cons_of_mem _ h1)
    · rw [if_neg hh] at h
      rcases List.mem_cons.mp h with h1 | h1
      · exact Or.inl (h1 ▸ List.mem_cons_self _ _)
      · rcases ih h1 with h2 | ⟨pe, hpe, h2⟩
        · exact Or.inl (List.mem_cons_of_mem _ h2)
        · exact Or.inr ⟨pe, List.mem_cons_of_mem _ hpe, h2⟩

theorem updateFirstProject_eq_map {ps : List ProjectEntry} {pid : String}
    (f : List ApiKeyRecord → List ApiKeyRecord)
    (h : (ps.map (fun pe => pe.project_info.project_id)).Nodup) :
    updateFirstProject ps pid f =
      ps.map (fun pe =>
        if pe.project_info.project_id == pid then
          { pe with api_keys := f pe.api_keys }
        else pe) := by
  induction ps with
  | nil => rfl
  | cons pe0 rest ih =>
    rw [List.map_cons, List.nodup_cons] at h
    unfold updateFirstProject
    by_cases hh : pe0.project_info.project_id == pid
    · rw [if_pos hh, List.map_cons, if_pos hh]
      have : rest.map (fun pe =>
          if pe.project_info.project_id == pid then
            { pe with api_keys := f pe.api_keys }
          else pe) = rest := by
        conv_rhs => rw [← List.map_id rest]
        apply List.map_congr_left
        intro pe hpe
        have hne : pe.project_info.project_id ≠ pid := by
          intro hEq
          apply h.1
          have : pe0.project_info.project_id = pid := by
            simpa using hh
          rw [this, ← hEq]
          exact List.mem_map_of_mem _ hpe
        simp [hne]
      rw [this]
    · rw [if_neg hh, List.map_cons, if_neg hh, ih h.2]

/-! ## Lemmas about key-record lists -/

theorem keyIds_append (a b : List ApiKeyRecord) :
    keyIds (a ++ b) = keyIds a ++ keyIds b := by
  simp [keyIds]

theorem any_keyId_eq_contains (keys : List ApiKeyRecord) (u : String) :
    (keys.any (fun r => r.key_details.key_id == u)) =
      (keyIds keys).contains u := by
  induction keys with
  | nil => rfl
  | cons r rest ih =>
    simp only [List.any_cons, keyIds, List.map_cons, List.contains_cons]
    rw [show (keyIds rest = List.map (fun r => r.key_details.key_id) rest)
      from rfl] at ih
    rw [ih, Bool.beq_comm]

theorem deactRecord_key_id (r : ApiKeyRecord) (now : String) :
    (deactRecord r now).key_details.key_id = r.key_details.key_id := rfl

theorem deactRecord_idem (r : ApiKeyRecord) (now : String) :
    deactRecord (deactRecord r now) now = deactRecord r now := rfl

theorem keyIds_updateLast (keys : List ApiKeyRecord) (u now : String) :
    keyIds (updateLast keys u now) = keyIds keys := by
  induction keys with
  | nil => rfl
  | cons r rest ih =>
    simp only [updateLast]
    by_cases h1 : ((keyIds rest).contains u) = true
    · rw [if_pos h1]
      show keyIds (r :: updateLast rest u now) = keyIds (r :: rest)
      simp only [keyIds, List.map_cons]
      exact congrArg _ ih
    · rw [if_neg h1]
      by_cases h2 : (r.key_details.key_id == u) = true
      · rw [if_pos h2]
        rfl
      · rw [if_neg h2]
        show keyIds (r :: updateLast rest u now) = keyIds (r :: rest)
        simp only [keyIds, List.map_cons]
        exact congrArg _ ih

theorem mem_keyIds {keys : List ApiKeyRecord} {u : String} :
    u ∈ keyIds keys ↔ ∃ r ∈ keys, r.key_details.key_id = u := by
  simp [keyIds, List.mem_map]

theorem deactIfIn_eq (us : List String) (now : String) (r : ApiKeyRecord) :
    deactIfIn us now r =
      if r.key_details.key_id ∈ us then deactRecord r now else r := by
  simp only [deactIfIn]
  by_cases h : r.key_details.key_id ∈ us
  · rw [if_pos (List.elem_iff.mpr h), if_pos h]
  · rw [if_neg (fun hc => h (List.elem_iff.mp hc)), if_neg h]

theorem deactIfIn_key_id (us : List String) (now : String)
    (r : ApiKeyRecord) :
    (deactIfIn us now r).key_details.key_id = r.key_details.key_id := by
  rw [deactIfIn_eq]
  by_cases h : r.key_details.key_id ∈ us
  · rw [if_pos h, deactRecord_key_id]
  · rw [if_neg h]

theorem deactIfIn_state (us : List String) (now : String)
    (r : ApiKeyRecord) (h : r.key_details.key_id ∈ us → r.state = "INACTIVE") :
    (deactIfIn us now r).state = r.state := by
  rw [deactIfIn_eq]
  by_cases hm : r.key_details.key_id ∈ us
  · rw [if_pos hm]
    exact (h hm).symm
  · rw [if_neg hm]

theorem keyIds_map_deactIfIn (keys : List ApiKeyRecord) (us : List String)
    (now : String) :
    keyIds (keys.map (deactIfIn us now)) = keyIds keys := by
  induction keys with
  | nil => rfl
  | cons r rest ih =>
    show (deactIfIn us now r).key_details.key_id ::
        keyIds (rest.map (deactIfIn us now)) =
      r.key_details.key_id :: keyIds rest
    rw [deactIfIn_key_id, ih]

theorem updateLast_eq_map {keys : List ApiKeyRecord} (u now : String)
    (h : (keyIds keys).Nodup) :
    updateLast keys u now = keys.map (deactIfIn [u] now) := by
  induction keys with
  | nil => rfl
  | cons r rest ih =>
    rw [show keyIds (r :: rest) =
      r.key_details.key_id :: keyIds rest from rfl] at h
    obtain ⟨hhead, htail⟩ := List.nodup_cons.mp h
    simp only [updateLast, List.map_cons]
    by_cases h1 : ((keyIds rest).contains u) = true
    · rw [if_pos h1]
      have hu : u ∈ keyIds rest := List.elem_iff.mp h1
      have hne : r.key_details.key_id ≠ u := fun hEq => hhead (hEq ▸ hu)
      have hr : deactIfIn [u] now r = r := by
        rw [deactIfIn_eq, if_neg (by simp [hne])]
      rw [hr, ih htail]
    · rw [if_neg h1]
      have hu : u ∉ keyIds rest := fun hm => h1 (List.elem_iff.mpr hm)
      have hmapid : rest.map (deactIfIn [u] now) = rest := by
        conv_rhs => rw [← List.map_id rest]
        apply List.map_congr_left
        intro rr hrr
        have hne : rr.key_details.key_id ≠ u := fun hEq =>
          hu (hEq ▸ mem_keyIds.mpr ⟨rr, hrr, rfl⟩)
        show deactIfIn [u] now rr = rr
        rw [deactIfIn_eq, if_neg (by simp [hne])]
      by_cases h2 : (r.key_details.key_id == u) = true
      · rw [if_pos h2]
        have hr : deactIfIn [u] now r = deactRecord r now := by
          rw [deactIfIn_eq, if_pos (by simp [beq_iff_eq.mp h2])]
        rw [hr, hmapid]
      · rw [if_neg h2]
        have hr : deactIfIn [u] now r = r := by
          rw [deactIfIn_eq, if_neg (by
            simp only [List.mem_singleton]
            exact fun hEq => h2 (beq_iff_eq.mpr hEq))]
        rw [hr, ih htail]

theorem deactFold_eq_map {keys : List ApiKeyRecord} (now : String)
    (us : List String) (h : (keyIds keys).Nodup) :
    us.foldl (fun ks u => updateLast ks u now) keys =
      keys.map (deactIfIn us now) := by
  induction us generalizing keys with
  | nil =>
    simp only [List.foldl_nil]
    conv_lhs => rw [← List.map_id keys]
    apply List.map_congr_left
    intro r _
    show r = deactIfIn [] now r
    rw [deactIfIn_eq, if_neg (List.not_mem_nil _)]
  | cons u us' ih =>
    rw [List.foldl_cons, updateLast_eq_map u now h,
      ih (by rw [keyIds_map_deactIfIn]; exact h), List.map_map]
    apply List.map_congr_left
    intro r _
    show deactIfIn us' now (deactIfIn [u] now r) = deactIfIn (u :: us') now r
    rw [deactIfIn_eq ([u]) now r, deactIfIn_eq (u :: us') now r]
    by_cases h1 : r.key_details.key_id = u
    · rw [if_pos (by simp [h1]), if_pos (by simp [h1]),
        deactIfIn_eq, deactRecord_key_id]
      by_cases h2 : r.key_details.key_id ∈ us'
      · rw [if_pos h2, deactRecord_idem]
      · rw [if_neg h2]
    · rw [if_neg (by simp [h1])]
      rw [deactIfIn_eq us' now r]
      by_cases h2 : r.key_details.key_id ∈ us'
      · rw [if_pos h2, if_pos (List.mem_cons_of_mem _ h2)]
      · rw [if_neg h2, if_neg (by
          intro hc
          rcases List.mem_cons.mp hc with hc | hc
          exacts [h1 hc, h2 hc])]

/-! ## Lemmas about the python-dict helpers -/

theorem pyDictKeys_foldl_exists (l2 : List String) :
    ∀ acc : List String,
      ∃ extras,
        l2.foldl (fun acc u => if acc.contains u then acc else acc ++ [u])
            acc = acc ++ extras ∧
        ∀ u ∈ extras, u ∈ l2 := by
  induction l2 with
  | nil => exact fun acc => ⟨[], by simp⟩
  | cons v l2' ih =>
    intro acc
    rw [List.foldl_cons]
    by_cases h : (acc.contains v) = true
    · rw [if_pos h]
      obtain ⟨extras, he, hm⟩ := ih acc
      exact ⟨extras, he, fun u hu => List.mem_cons_of_mem _ (hm u hu)⟩
    · rw [if_neg h]
      obtain ⟨extras, he, hm⟩ := ih (acc ++ [v])
      refine ⟨v :: extras, by rw [he, List.append_assoc]; rfl, ?_⟩
      intro u hu
      rcases List.mem_cons.mp hu with hu | hu
      · exact hu ▸ List.mem_cons_self _ _
      · exact List.mem_cons_of_mem _ (hm u hu)

theorem pyDictKeys_append (l1 l2 : List String) :
    ∃ extras,
      pyDictKeys (l1 ++ l2) = pyDictKeys l1 ++ extras ∧
      ∀ u ∈ extras, u ∈ l2 := by
  unfold pyDictKeys
  rw [List.foldl_append]
  exact pyDictKeys_foldl_exists l2 (l1.foldl _ [])

theorem mem_pyDictKeys_foldl (l : List String) :
    ∀ (acc : List String) (u : String),
      u ∈ l.foldl (fun acc u => if acc.contains u then acc else acc ++ [u])
          acc ↔ u ∈ acc ∨ u ∈ l := by
  induction l with
  | nil => simp
  | cons v l' ih =>
    intro acc u
    rw [List.foldl_cons]
    by_cases h : (acc.contains v) = true
    · rw [if_pos h, ih]
      constructor
      · rintro (hu | hu)
        · exact Or.inl hu
        · exact Or.inr (List.mem_cons_of_mem _ hu)
      · rintro (hu | hu)
        · exact Or.inl hu
        · rcases List.mem_cons.mp hu with hu | hu
          · exact Or.inl (hu ▸ List.elem_iff.mp h)
          · exact Or.inr hu
    · rw [if_neg h, ih]
      constructor
      · rintro (hu | hu)
        · rcases List.mem_append.mp hu with hu | hu
          · exact Or.inl hu
          · exact Or.inr (List.mem_cons.mpr (Or.inl (List.mem_singleton.mp hu)))
        · exact Or.inr (List.mem_cons_of_mem _ hu)
      · rintro (hu | hu)
        · exact Or.inl (List.mem_append.mpr (Or.inl hu))
        · rcases List.mem_cons.mp hu with hu | hu
          · exact Or.inl (List.mem_append.mpr (Or.inr (by simp [hu])))
          · exact Or.inr hu

theorem mem_pyDictKeys {l : List String} {u : String} :
    u ∈ pyDictKeys l ↔ u ∈ l := by
  unfold pyDictKeys
  rw [mem_pyDictKeys_foldl]
  simp

theorem nodup_pyDictKeys_foldl (l : List String) :
    ∀ acc : List String, acc.Nodup →
      (l.foldl (fun acc u => if acc.contains u then acc else acc ++ [u])
          acc).Nodup := by
  induction l with
  | nil => exact fun acc h => h
  | cons v l' ih =>
    intro acc hacc
    rw [List.foldl_cons]
    by_cases h : (acc.contains v) = true
    · rw [if_pos h]
      exact ih acc hacc
    · rw [if_neg h]
      refine ih (acc ++ [v]) ?_
      rw [List.nodup_append]
      exact ⟨hacc, List.nodup_singleton v,
        by simp [List.disjoint_singleton]
           exact fun hm => h (List.elem_iff.mpr hm)⟩

theorem nodup_pyDictKeys (l : List String) : (pyDictKeys l).Nodup :=
  nodup_pyDictKeys_foldl l [] List.nodup_nil

theorem pyReplace_map_uid (acc : List CloudKey) (k : CloudKey) :
    (acc.map (fun k0 => if k0.uid == k.uid then k else k0)).map
        (fun x => x.uid) =
      acc.map (fun x => x.uid) := by
  rw [List.map_map]
  apply List.map_congr_left
  intro k0 _
  show (if (k0.uid == k.uid) = true then k else k0).uid = k0.uid
  by_cases h : (k0.uid == k.uid) = true
  · rw [if_pos h]
    exact (beq_iff_eq.mp h).symm
  · rw [if_neg h]

theorem any_uid_mem {acc : List CloudKey} {k : CloudKey}
    (h : (acc.any (fun k0 => k0.uid == k.uid)) = true) :
    k.uid ∈ acc.map (fun x => x.uid) := by
  rw [List.any_eq_true] at h
  obtain ⟨k0, hk0, hb⟩ := h
  exact List.mem_map.mpr ⟨k0, hk0, beq_iff_eq.mp hb⟩

theorem any_uid_not_mem {acc : List CloudKey} {k : CloudKey}
    (h : (acc.any (fun k0 => k0.uid == k.uid)) = false) :
    k.uid ∉ acc.map (fun x => x.uid) := by
  intro hm
  obtain ⟨k0, hk0, huid⟩ := List.mem_map.mp hm
  have := List.any_eq_false.mp h k0 hk0
  exact this (beq_iff_eq.mpr huid)

theorem pyDedup_foldl_nodup (ks : List CloudKey) :
    ∀ acc : List CloudKey, (acc.map (fun x => x.uid)).Nodup →
      ((ks.foldl (fun acc k =>
          if acc.any (fun k0 => k0.uid == k.uid) then
            acc.map (fun k0 => if k0.uid == k.uid then k else k0)
          else acc ++ [k]) acc).map (fun x => x.uid)).Nodup := by
  induction ks with
  | nil => exact fun acc h => h
  | cons k ks' ih =>
    intro acc hacc
    rw [List.foldl_cons]
    by_cases h : (acc.any (fun k0 => k0.uid == k.uid)) = true
    · rw [if_pos h]
      exact ih _ (by rw [pyReplace_map_uid]; exact hacc)
    · rw [if_neg h]
      refine ih _ ?_
      rw [List.map_append, List.nodup_append]
      refine ⟨hacc, List.nodup_singleton _, ?_⟩
      simp only [List.map_cons, List.map_nil, List.disjoint_singleton]
      exact any_uid_not_mem (Bool.of_not_eq_true h)

theorem nodup_pyDedup_uids (ks : List CloudKey) :
    ((pyDedupKeysLastWins ks).map (fun k => k.uid)).Nodup :=
  pyDedup_foldl_nodup ks [] List.nodup_nil

theorem pyDedup_foldl_mem_uid (ks : List CloudKey) :
    ∀ (acc : List CloudKey) (u : String),
      (u ∈ (ks.foldl (fun acc k =>
          if acc.any (fun k0 => k0.uid == k.uid) then
            acc.map (fun k0 => if k0.uid == k.uid then k else k0)
          else acc ++ [k]) acc).map (fun x => x.uid)) ↔
      u ∈ acc.map (fun x => x.uid) ∨ u ∈ ks.map (fun x => x.uid) := by
  induction ks with
  | nil => simp
  | cons k ks' ih =>
    intro acc u
    rw [List.foldl_cons]
    by_cases h : (acc.any (fun k0 => k0.uid == k.uid)) = true
    · rw [if_pos h, ih, pyReplace_map_uid]
      constructor
      · rintro (hu | hu)
        · exact Or.inl hu
        · exact Or.inr (List.mem_cons_of_mem _ hu)
      · rintro (hu | hu)
        · exact Or.inl hu
        · rcases List.mem_cons.mp hu with hu | hu
          · exact Or.inl (hu ▸ any_uid_mem h)
          · exact Or.inr hu
    · rw [if_neg h, ih]
      rw [List.map_append]
      constructor
      · rintro (hu | hu)
        · rcases List.mem_append.mp hu with hu | hu
          · exact Or.inl hu
          · exact Or.inr (List.mem_cons.mpr
              (Or.inl (List.mem_singleton.mp hu)))
        · exact Or.inr (List.mem_cons_of_mem _ hu)
      · rintro (hu | hu)
        · exact Or.inl (List.mem_append.mpr (Or.inl hu))
        · rcases List.mem_cons.mp hu with hu | hu
          · exact Or.inl (List.mem_append.mpr (Or.inr (by simp [hu])))
          · exact Or.inr hu

theorem mem_pyDedup_uid {ks : List CloudKey} {u : String} :
    u ∈ (pyDedupKeysLastWins ks).map (fun k => k.uid) ↔
      u ∈ ks.map (fun k => k.uid) := by
  unfold pyDedupKeysLastWins
  rw [pyDedup_foldl_mem_uid]
  simp

theorem pyDedup_foldl_mem (ks : List CloudKey) :
    ∀ (acc : List CloudKey) (x : CloudKey),
      x ∈ ks.foldl (fun acc k =>
          if acc.any (fun k0 => k0.uid == k.uid) then
            acc.map (fun k0 => if k0.uid == k.uid then k else k0)
          else acc ++ [k]) acc →
      x ∈ acc ∨ x ∈ ks := by
  induction ks with
  | nil => exact fun acc x h => Or.inl h
  | cons k ks' ih =>
    intro acc x hx
    rw [List.foldl_cons] at hx
    by_cases h : (acc.any (fun k0 => k0.uid == k.uid)) = true
    · rw [if_pos h] at hx
      rcases ih _ x hx with hx | hx
      · obtain ⟨k0, hk0, hk0x⟩ := List.mem_map.mp hx
        by_cases hb : (k0.uid == k.uid) = true
        · rw [if_pos hb] at hk0x
          exact Or.inr (hk0x ▸ List.mem_cons_self _ _)
        · rw [if_neg hb] at hk0x
          exact Or.inl (hk0x ▸ hk0)
      · exact Or.inr (List.mem_cons_of_mem _ hx)
    · rw [if_neg h] at hx
      rcases ih _ x hx with hx | hx
      · rcases List.mem_append.mp hx with hx | hx
        · exact Or.inl hx
        · exact Or.inr (List.mem_cons.mpr
            (Or.inl (List.mem_singleton.mp hx)))
      · exact Or.inr (List.mem_cons_of_mem _ hx)

theorem mem_pyDedup {ks : List CloudKey} {x : CloudKey}
    (h : x ∈ pyDedupKeysLastWins ks) : x ∈ ks := by
  rcases pyDedup_foldl_mem ks [] x h with hx | hx
  · exact absurd hx (List.not_mem_nil x)
  · exact hx

/-! ## Lemmas about the inserted records -/

theorem fetchAddedKeys_nil (env : CloudEnv) (L : List String) :
    fetchAddedKeys env L [] = [] := rfl

theorem fetchAddedKeys_cons_skip (env : CloudEnv) (L : List String)
    {k : CloudKey} (ds : List CloudKey)
    (h : (L.contains k.uid) = true) :
    fetchAddedKeys env L (k :: ds) = fetchAddedKeys env L ds := by
  simp only [fetchAddedKeys, List.filterMap_cons, if_pos h]

theorem fetchAddedKeys_cons_err (env : CloudEnv) (L : List String)
    {k : CloudKey} (ds : List CloudKey) {e : GError}
    (h : (L.contains k.uid) = false)
    (hf : env.getKeyString k.name = Except.error e) :
    fetchAddedKeys env L (k :: ds) = fetchAddedKeys env L ds := by
  have hne : ¬(L.contains k.uid) = true := by
    rw [h]
    exact Bool.false_ne_true
  simp only [fetchAddedKeys, List.filterMap_cons, if_neg hne, hf]

theorem fetchAddedKeys_cons_ok (env : CloudEnv) (L : List String)
    {k : CloudKey} (ds : List CloudKey) {s : String}
    (h : (L.contains k.uid) = false)
    (hf : env.getKeyString k.name = Except.ok s) :
    fetchAddedKeys env L (k :: ds) =
      mkNewKeyEntry (mkTempKey k s) :: fetchAddedKeys env L ds := by
  have hne : ¬(L.contains k.uid) = true := by
    rw [h]
    exact Bool.false_ne_true
  simp only [fetchAddedKeys, List.filterMap_cons, if_neg hne, hf]

theorem keyIds_fetchAddedKeys_sublist (env : CloudEnv) (L : List String)
    (ds : List CloudKey) :
    (keyIds (fetchAddedKeys env L ds)).Sublist
      (ds.map (fun k => k.uid)) := by
  induction ds with
  | nil => exact List.Sublist.refl _
  | cons k ds' ih =>
    by_cases h : (L.contains k.uid) = true
    · rw [fetchAddedKeys_cons_skip env L ds' h]
      exact List.Sublist.cons _ ih
    · have h' : (L.contains k.uid) = false := Bool.eq_false_iff.mpr h
      cases hf : env.getKeyString k.name with
      | ok s =>
        rw [fetchAddedKeys_cons_ok env L ds' h' hf]
        exact List.Sublist.cons₂ _ ih
      | error e =>
        rw [fetchAddedKeys_cons_err env L ds' h' hf]
        exact List.Sublist.cons _ ih

theorem mem_keyIds_fetchAddedKeys {env : CloudEnv} {L : List String}
    {ds : List CloudKey} {u : String} :
    u ∈ keyIds (fetchAddedKeys env L ds) ↔
      ∃ k ∈ ds, k.uid = u ∧ (L.contains k.uid) = false ∧
        ∃ s, env.getKeyString k.name = Except.ok s := by
  induction ds with
  | nil =>
    simp [fetchAddedKeys_nil, keyIds]
  | cons k ds' ih =>
    constructor
    · intro hu
      by_cases h : (L.contains k.uid) = true
      · rw [fetchAddedKeys_cons_skip env L ds' h] at hu
        obtain ⟨k', hk', hrest⟩ := ih.mp hu
        exact ⟨k', List.mem_cons_of_mem _ hk', hrest⟩
      · have h' : (L.contains k.uid) = false := Bool.eq_false_iff.mpr h
        cases hf : env.getKeyString k.name with
        | ok s =>
          rw [fetchAddedKeys_cons_ok env L ds' h' hf] at hu
          rcases List.mem_cons.mp hu with hu | hu
          · exact ⟨k, List.mem_cons_self _ _, hu.symm, h', s, hf⟩
          · obtain ⟨k', hk', hrest⟩ := ih.mp hu
            exact ⟨k', List.mem_cons_of_mem _ hk', hrest⟩
        | error e =>
          rw [fetchAddedKeys_cons_err env L ds' h' hf] at hu
          obtain ⟨k', hk', hrest⟩ := ih.mp hu
          exact ⟨k', List.mem_cons_of_mem _ hk', hrest⟩
    · rintro ⟨k', hk', huid, hL, s, hs⟩
      rcases List.mem_cons.mp hk' with hk' | hk'
      · subst hk'
        rw [fetchAddedKeys_cons_ok env L ds' hL hs]
        exact huid ▸ List.mem_cons_self _ _
      · have hmem : u ∈ keyIds (fetchAddedKeys env L ds') :=
          ih.mpr ⟨k', hk', huid, hL, s, hs⟩
        by_cases h : (L.contains k.uid) = true
        · rw [fetchAddedKeys_cons_skip env L ds' h]
          exact hmem
        · have h' : (L.contains k.uid) = false := Bool.eq_false_iff.mpr h
          cases hf : env.getKeyString k.name with
          | ok s0 =>
            rw [fetchAddedKeys_cons_ok env L ds' h' hf]
            exact List.mem_cons_of_mem _ hmem
          | error e =>
            rw [fetchAddedKeys_cons_err env L ds' h' hf]
            exact hmem

theorem not_in_L_of_mem_fetchAdded {env : CloudEnv} {L : List String}
    {ds : List CloudKey} {u : String}
    (h : u ∈ keyIds (fetchAddedKeys env L ds)) :
    (L.contains u) = false := by
  obtain ⟨k, _, huid, hL, _⟩ := mem_keyIds_fetchAddedKeys.mp h
  exact huid ▸ hL

/-! ## The cloud-only insertion phase as a single ledger update -/

theorem addPhase_spec (project : CloudProject) (env : CloudEnv)
    (L : List String) :
    ∀ (ds : List CloudKey) (acct : Account) (pe : ProjectEntry),
      findProjectEntry acct.projects project.project_id = some pe →
      (∀ k ∈ ds, (L.contains k.uid) = false →
        ((keyIds pe.api_keys).contains k.uid) = false) →
      (ds.map (fun k => k.uid)).Nodup →
      ds.foldl (reconcileAddStep project env L) acct =
        { acct with
            projects := updateFirstProject acct.projects
              project.project_id
              (fun keys => keys ++ fetchAddedKeys env L ds) } := by
  intro ds
  induction ds with
  | nil =>
    intro acct pe hf _ _
    rw [List.foldl_nil, fetchAddedKeys_nil,
      updateFirstProject_eq_self acct.projects project.project_id hf
        (List.append_nil pe.api_keys)]
  | cons k ds' ih =>
    intro acct pe hf hds hnd
    rw [List.foldl_cons]
    rw [List.map_cons, List.nodup_cons] at hnd
    by_cases hL : (L.contains k.uid) = true
    · have hstep : reconcileAddStep project env L acct k = acct := by
        simp only [reconcileAddStep, if_pos hL]
      rw [hstep, fetchAddedKeys_cons_skip env L ds' hL]
      exact ih acct pe hf (fun k' hk' => hds k' (List.mem_cons_of_mem _ hk'))
        hnd.2
    · have hL' : (L.contains k.uid) = false := Bool.eq_false_iff.mpr hL
      have hcur : ((keyIds pe.api_keys).contains k.uid) = false :=
        hds k (List.mem_cons_self _ _) hL'
      have hLne : ¬(L.contains k.uid) = true := by
        rw [hL']
        exact Bool.false_ne_true
      cases hfetch : env.getKeyString k.name with
      | error e =>
        have hstep : reconcileAddStep project env L acct k = acct := by
          simp only [reconcileAddStep, if_neg hLne, hfetch]
        rw [hstep, fetchAddedKeys_cons_err env L ds' hL' hfetch]
        exact ih acct pe hf
          (fun k' hk' => hds k' (List.mem_cons_of_mem _ hk')) hnd.2
      | ok s =>
        have hstep : reconcileAddStep project env L acct k =
            add_key_to_database acct project (mkTempKey k s) := by
          simp only [reconcileAddStep, if_neg hLne, hfetch]
        have hadd : add_key_to_database acct project (mkTempKey k s) =
            { acct with
                projects := updateFirstProject acct.projects
                  project.project_id
                  (fun keys => keys ++ [mkNewKeyEntry (mkTempKey k s)]) } := by
          unfold add_key_to_database
          rw [if_pos (hasProject_of_find hf)]
          have := @updateFirstProject_congr acct.projects project.project_id
            pe
            (fun keys =>
              if keys.any (fun r => r.key_details.key_id ==
                  (mkTempKey k s).uid) then keys
              else keys ++ [mkNewKeyEntry (mkTempKey k s)])
            (fun keys => keys ++ [mkNewKeyEntry (mkTempKey k s)])
            hf
            (by
              show (if (pe.api_keys.any (fun r =>
                  r.key_details.key_id == (mkTempKey k s).uid)) = true
                then pe.api_keys
                else pe.api_keys ++ [mkNewKeyEntry (mkTempKey k s)]) =
                pe.api_keys ++ [mkNewKeyEntry (mkTempKey k s)]
              have hany : ¬(pe.api_keys.any (fun r =>
                  r.key_details.key_id == (mkTempKey k s).uid)) = true := by
                rw [any_keyId_eq_contains]
                show ¬((keyIds pe.api_keys).contains k.uid) = true
                rw [hcur]
                exact Bool.false_ne_true
              rw [if_neg hany])
          rw [this]
        rw [hstep, hadd]
        have hf' : findProjectEntry
            (updateFirstProject acct.projects project.project_id
              (fun keys => keys ++ [mkNewKeyEntry (mkTempKey k s)]))
            project.project_id =
            some { pe with api_keys :=
              pe.api_keys ++ [mkNewKeyEntry (mkTempKey k s)] } := by
          rw [find_updateFirstProject, hf]
          rfl
        have hds' : ∀ k' ∈ ds', (L.contains k'.uid) = false →
            ((keyIds (pe.api_keys ++ [mkNewKeyEntry (mkTempKey k s)])).contains
              k'.uid) = false := by
          intro k' hk' hL2
          rw [keyIds_append]
          rw [Bool.eq_false_iff]
          intro hc
          have hm := List.elem_iff.mp hc
          rcases List.mem_append.mp hm with hm | hm
          · have := hds k' (List.mem_cons_of_mem _ hk') hL2
            rw [Bool.eq_false_iff] at this
            exact this (List.elem_iff.mpr hm)
          · have : k'.uid = k.uid := by
              simpa [keyIds, mkNewKeyEntry, mkTempKey] using hm
            exact hnd.1 (this ▸ List.mem_map_of_mem _ hk')
        have := ih ({ acct with
            projects := updateFirstProject acct.projects project.project_id
              (fun keys => keys ++ [mkNewKeyEntry (mkTempKey k s)]) })
          ({ pe with api_keys :=
            pe.api_keys ++ [mkNewKeyEntry (mkTempKey k s)] }) hf' hds' hnd.2
        rw [this]
        show ({ acct with
            projects := updateFirstProject
              (updateFirstProject acct.projects project.project_id
                (fun keys => keys ++ [mkNewKeyEntry (mkTempKey k s)]))
              project.project_id
              (fun keys => keys ++ fetchAddedKeys env L ds') } : Account) = _
        rw [updateFirstProject_comp]
        rw [fetchAddedKeys_cons_ok env L ds' hL' hfetch]
        have hfg : (fun keys =>
            (keys ++ [mkNewKeyEntry (mkTempKey k s)]) ++
              fetchAddedKeys env L ds') =
            (fun keys => keys ++
              (mkNewKeyEntry (mkTempKey k s) :: fetchAddedKeys env L ds')) := by
          funext keys
          rw [List.append_assoc]
          rfl
        rw [hfg]

/-! ## Closed form of a full reconciliation run -/

theorem ite_false_bool {α : Sort _} (a b : α) :
    (if (false : Bool) then a else b) = b := rfl

theorem reconcile_ok {project : CloudProject} {env : CloudEnv}
    {dry_run : Bool} {acct : Account} {now : String} {ks : List CloudKey}
    (hks : env.listKeys project.project_id = Except.ok ks) :
    reconcile_project_keys project env dry_run acct now =
      reconcileWithKeys project env dry_run acct now ks := by
  unfold reconcile_project_keys
  rw [hks]

theorem reconcile_listFail {project : CloudProject} {env : CloudEnv}
    {dry_run : Bool} {acct : Account} {now : String} {e : GError}
    (hks : env.listKeys project.project_id = Except.error e) :
    reconcile_project_keys project env dry_run acct now =
      (false, acct, [CloudCall.listKeysCall project.project_id]) := by
  unfold reconcile_project_keys
  rw [hks]

theorem entryKeys_of_find {acct : Account} {pid : String}
    {pe : ProjectEntry} (hf : findProjectEntry acct.projects pid = some pe) :
    entryKeys acct pid = pe.api_keys := by
  unfold entryKeys
  rw [hf]

theorem nodup_appended_ids {env : CloudEnv} {pe : ProjectEntry}
    {ds : List CloudKey} (hnd : (keyIds pe.api_keys).Nodup)
    (hds : (ds.map (fun k => k.uid)).Nodup) :
    (keyIds (pe.api_keys ++ fetchAddedKeys env (keyIds pe.api_keys) ds)).Nodup
    := by
  rw [keyIds_append]
  refine List.Nodup.append hnd
    (List.Nodup.sublist (keyIds_fetchAddedKeys_sublist env _ ds) hds) ?_
  intro a ha hb
  have hfa := not_in_L_of_mem_fetchAdded hb
  rw [Bool.eq_false_iff] at hfa
  exact hfa (List.elem_iff.mpr ha)

theorem reconcileWithKeys_spec (project : CloudProject) (env : CloudEnv)
    (acct : Account) (now : String) (ks : List CloudKey)
    (pe : ProjectEntry)
    (hf : findProjectEntry acct.projects project.project_id = some pe)
    (hnd : (keyIds pe.api_keys).Nodup) :
    reconcileWithKeys project env false acct now ks =
      (managedFlag ks,
       { acct with
           projects := (updateFirstProject acct.projects project.project_id
             (fun keys =>
               (keys ++ fetchAddedKeys env (keyIds pe.api_keys)
                   (pyDedupKeysLastWins ks)).map
                 (deactIfIn (localOnlyOf (keyIds pe.api_keys)
                   ((pyDedupKeysLastWins ks).map (fun k => k.uid))) now))) },
       CloudCall.listKeysCall project.project_id ::
         ((pyDedupKeysLastWins ks).filter
           (fun k => !((keyIds pe.api_keys).contains k.uid))).map
           (fun k => CloudCall.getKeyStringCall k.name)) := by
  have hpid : hasProject acct.projects project.project_id = true :=
    hasProject_of_find hf
  simp only [reconcileWithKeys]
  rw [if_pos hpid, entryKeys_of_find hf, ite_false_bool, ite_false_bool,
    ite_false_bool]
  rw [addPhase_spec project env (keyIds pe.api_keys)
    (pyDedupKeysLastWins ks) acct pe hf (fun _ _ h => h)
    (nodup_pyDedup_uids ks)]
  refine Prod.ext rfl (Prod.ext ?_ rfl)
  show ({ acct with
      projects := (updateFirstProject
        (updateFirstProject acct.projects project.project_id
          (fun keys => keys ++ fetchAddedKeys env (keyIds pe.api_keys)
            (pyDedupKeysLastWins ks)))
        project.project_id
        (fun keys =>
          ((pyDictKeys (keyIds pe.api_keys)).filter (fun u =>
            !(((pyDedupKeysLastWins ks).map (fun k => k.uid)).contains
              u))).foldl (fun ks u => updateLast ks u now) keys)) } :
    Account) = _
  rw [updateFirstProject_comp]
  have hval := @deactFold_eq_map (pe.api_keys ++
      fetchAddedKeys env (keyIds pe.api_keys) (pyDedupKeysLastWins ks)) now
    (localOnlyOf (keyIds pe.api_keys)
      ((pyDedupKeysLastWins ks).map (fun k => k.uid)))
    (nodup_appended_ids hnd (nodup_pyDedup_uids ks))
  simp only [localOnlyOf] at hval
  congr 1
  apply updateFirstProject_congr acct.projects project.project_id hf
  simp only [localOnlyOf]
  exact hval

theorem reconcileWithKeys_ensure_entry (project : CloudProject)
    (env : CloudEnv) (dry_run : Bool) (acct : Account) (now : String)
    (ks : List CloudKey)
    (hnp : hasProject acct.projects project.project_id = false) :
    reconcileWithKeys project env dry_run acct now ks =
      reconcileWithKeys project env dry_run
        { acct with projects := acct.projects ++
            [{ project_info := mkProjectInfo project, api_keys := [] }] }
        now ks := by
  have hnot : ¬(hasProject acct.projects project.project_id) = true := by
    rw [hnp]
    exact Bool.false_ne_true
  have hfr : findProjectEntry
      (acct.projects ++
        [{ project_info := mkProjectInfo project, api_keys := [] }])
      project.project_id =
      some { project_info := mkProjectInfo project, api_keys := [] } :=
    find_append_right hnp _ (beq_iff_eq.mpr rfl)
  have hpos : hasProject
      (acct.projects ++
        [{ project_info := mkProjectInfo project, api_keys := [] }])
      project.project_id = true := hasProject_of_find hfr
  simp only [reconcileWithKeys]
  rw [if_neg hnot, if_pos hpos]

/-! ## Preservation of the unique-key_id invariant -/

theorem DbInvariant_updateFirst {acct : Account} {pid : String}
    {f : List ApiKeyRecord → List ApiKeyRecord}
    (h : DbInvariant acct)
    (hpres : ∀ keys, (keyIds keys).Nodup → (keyIds (f keys)).Nodup) :
    DbInvariant { acct with
      projects := updateFirstProject acct.projects pid f } := by
  intro pe' hpe'
  rcases mem_updateFirstProject hpe' with hm | ⟨pe, hpe, hEq⟩
  · exact h pe' hm
  · rw [hEq]
    exact hpres pe.api_keys (h pe hpe)

theorem DbInvariant_add (acct : Account) (project : CloudProject)
    (k : TempKey) (h : DbInvariant acct) :
    DbInvariant (add_key_to_database acct project k) := by
  unfold add_key_to_database
  by_cases hp : (hasProject acct.projects project.project_id) = true
  · rw [if_pos hp]
    refine DbInvariant_updateFirst h ?_
    intro keys hkeys
    by_cases hany : (keys.any (fun r => r.key_details.key_id == k.uid)) = true
    · rw [if_pos hany]
      exact hkeys
    · rw [if_neg hany]
      rw [keyIds_append]
      refine List.Nodup.append hkeys (List.nodup_singleton _) ?_
      intro a ha hb
      have ha' : a = k.uid := List.mem_singleton.mp hb
      rw [any_keyId_eq_contains] at hany
      exact hany (List.elem_iff.mpr (ha' ▸ ha))
  · rw [if_neg hp]
    intro pe' hpe'
    rcases List.mem_append.mp hpe' with hm | hm
    · exact h pe' hm
    · rw [List.mem_singleton.mp hm]
      exact List.nodup_singleton _

theorem add_unchanged_of_existing {acct : Account} {project : CloudProject}
    {k : TempKey} {pe : ProjectEntry}
    (hf : findProjectEntry acct.projects project.project_id = some pe)
    (hex : (pe.api_keys.any (fun r => r.key_details.key_id == k.uid)) = true) :
    add_key_to_database acct project k = acct := by
  unfold add_key_to_database
  rw [if_pos (hasProject_of_find hf)]
  rw [updateFirstProject_eq_self acct.projects project.project_id hf
    (by rw [if_pos hex])]

theorem DbInvariant_foldl_add (project : CloudProject) (env : CloudEnv)
    (L : List String) :
    ∀ (ds : List CloudKey) (acct : Account), DbInvariant acct →
      DbInvariant (ds.foldl (reconcileAddStep project env L) acct) := by
  intro ds
  induction ds with
  | nil => exact fun acct h => h
  | cons k ds' ih =>
    intro acct h
    rw [List.foldl_cons]
    refine ih _ ?_
    unfold reconcileAddStep
    by_cases hL : (L.contains k.uid) = true
    · rw [if_pos hL]
      exact h
    · rw [if_neg hL]
      cases env.getKeyString k.name with
      | ok s => exact DbInvariant_add acct project (mkTempKey k s) h
      | error e => exact h

theorem keyIds_deactFold (now : String) :
    ∀ (us : List String) (keys : List ApiKeyRecord),
      keyIds (us.foldl (fun ks u => updateLast ks u now) keys) =
        keyIds keys := by
  intro us
  induction us with
  | nil => exact fun keys => rfl
  | cons u us' ih =>
    intro keys
    rw [List.foldl_cons, ih, keyIds_updateLast]

theorem DbInvariant_reconcile (project : CloudProject) (env : CloudEnv)
    (dry_run : Bool) (acct : Account) (now : String)
    (h : DbInvariant acct) :
    DbInvariant (reconcile_project_keys project env dry_run acct now).2.1 := by
  cases hls : env.listKeys project.project_id with
  | error e =>
    rw [reconcile_listFail hls]
    exact h
  | ok ks =>
    rw [reconcile_ok hls]
    simp only [reconcileWithKeys]
    have h1 : DbInvariant
        (if hasProject acct.projects project.project_id then acct
         else { acct with projects := acct.projects ++
           [{ project_info := mkProjectInfo project, api_keys := [] }] }) := by
      by_cases hp : (hasProject acct.projects project.project_id) = true
      · rw [if_pos hp]
        exact h
      · rw [if_neg hp]
        intro pe' hpe'
        rcases List.mem_append.mp hpe' with hm | hm
        · exact h pe' hm
        · rw [List.mem_singleton.mp hm]
          exact List.nodup_nil
    by_cases hd : dry_run = true
    · simp only [hd, if_true]
      exact h1
    · simp only [hd, if_false, Bool.false_eq_true]
      refine DbInvariant_updateFirst ?_ ?_
      · exact DbInvariant_foldl_add project env _ _ _ h1
      · intro keys hkeys
        rw [keyIds_deactFold]
        exact hkeys

/-! ## Dry-run and delete-action reduction lemmas -/

theorem ite_true_bool {α : Sort _} (a b : α) :
    (if (true : Bool) then a else b) = a := rfl

theorem reconcileWithKeys_dry (project : CloudProject) (env : CloudEnv)
    (acct : Account) (now : String) (ks : List CloudKey) :
    reconcileWithKeys project env true acct now ks =
      (managedFlag ks,
       (if hasProject acct.projects project.project_id then acct
        else { acct with projects := acct.projects ++
          [{ project_info := mkProjectInfo project, api_keys := [] }] }),
       [CloudCall.listKeysCall project.project_id]) := rfl

theorem enable_retry_dry (pid : String) (env : CloudEnv) :
    enable_api_with_interactive_retry pid env true = (true, []) := rfl

theorem create_api_key_dry (pid : String) (env : CloudEnv) (now : String) :
    create_api_key pid env true now =
      (some (mockDryRunKey pid now), []) := rfl

theorem delete_ok {pid : String} {env : CloudEnv} {dry_run : Bool}
    {ks : List CloudKey} (hks : env.listKeys pid = Except.ok ks) :
    delete_api_keys pid env dry_run = deleteWithKeys pid env dry_run ks := by
  unfold delete_api_keys
  rw [hks]

theorem delete_fail {pid : String} {env : CloudEnv} {dry_run : Bool}
    {e : GError} (hks : env.listKeys pid = Except.error e) :
    delete_api_keys pid env dry_run = ([], [CloudCall.listKeysCall pid]) := by
  unfold delete_api_keys
  rw [hks]

theorem deleteWithKeys_dry (pid : String) (env : CloudEnv)
    (ks : List CloudKey) :
    deleteWithKeys pid env true ks =
      ((ks.filter (fun k =>
          k.display_name == GEMINI_API_KEY_DISPLAY_NAME)).map
        (fun k => k.uid),
       [CloudCall.listKeysCall pid]) := by
  simp only [deleteWithKeys]
  by_cases h : ((ks.filter (fun k =>
      k.display_name == GEMINI_API_KEY_DISPLAY_NAME)).isEmpty) = true
  · rw [if_pos h]
    rw [List.isEmpty_iff] at h
    rw [h]
    rfl
  · rw [if_neg h]
    simp only [if_true]

/-- C7: with dry-run enabled, no cloud-mutating capability call (key
create, key delete, API enable) is issued by per-project processing,
regardless of the action; the run-level ledger save is skipped; and key
creation returns the fixed synthetic mock key. -/
theorem claim7_dry_run_no_mutation :
    ∀ (project : CloudProject) (action : Action) (env : CloudEnv)
      (acct : Account) (now : String),
    ((process_project_for_action project action true env acct now).2.all
      (fun c => !(isMutatingCall c))) = true ∧
    mainPersistsLedger true = false ∧
    (∀ pid, create_api_key pid env true now =
      (some (mockDryRunKey pid now), [])) := by
  intro project action env acct now
  refine ⟨?_, rfl, fun pid => rfl⟩
  cases action with
  | create =>
    cases hls : env.listKeys project.project_id with
    | error e =>
      simp only [process_project_for_action, reconcile_listFail hls,
        enable_retry_dry, create_api_key_dry]
      rfl
    | ok ks =>
      simp only [process_project_for_action, reconcile_ok hls,
        reconcileWithKeys_dry, enable_retry_dry, create_api_key_dry]
      by_cases hflag : managedFlag ks = true
      · rw [if_pos hflag]
        rfl
      · rw [if_neg hflag]
        rfl
  | delete =>
    cases hls : env.listKeys project.project_id with
    | error e =>
      simp only [process_project_for_action, delete_fail hls]
      rfl
    | ok ks =>
      simp only [process_project_for_action, delete_ok hls,
        deleteWithKeys_dry]
      by_cases hemp : (((ks.filter (fun k =>
          k.display_name == GEMINI_API_KEY_DISPLAY_NAME)).map
            (fun k => k.uid)).isEmpty) = true
      · rw [if_pos hemp]
        rfl
      · rw [if_neg hemp]
        rfl

/-- C8: a permission or API failure while listing a project's cloud keys
makes reconciliation return false with the account untouched (only the
listing call was issued), and the create flow still continues past it
to the enablement attempt rather than aborting the run. -/
theorem claim8_listing_failure_nonfatal
    (project : CloudProject) (env : CloudEnv) (acct : Account)
    (now : String) (e : GError)
    (hks : env.listKeys project.project_id = Except.error e) :
    reconcile_project_keys project env false acct now =
      (false, acct, [CloudCall.listKeysCall project.project_id]) ∧
    ((process_project_for_action project Action.create false env acct
        now).2.contains
      (CloudCall.enableApiCall project.project_id)) = true := by
  refine ⟨reconcile_listFail hks, ?_⟩
  simp only [process_project_for_action, reconcile_listFail hks,
    enable_api_with_interactive_retry, enable_api, create_api_key,
    ite_false_bool]
  cases henb : env.enableService project.project_id with
  | ok u =>
    cases hck : env.createKey project.project_id with
    | ok k => simp [List.contains_cons]
    | error e2 => simp [List.contains_cons]
  | error e2 => simp [List.contains_cons]

/-! ## The delete action as a per-entry filter -/

theorem filter_not_contains_nil (keys : List ApiKeyRecord) :
    keys.filter (fun r =>
      !((([] : List String)).contains r.key_details.key_id)) = keys := by
  rw [List.filter_eq_self]
  intro a _
  rfl

theorem remove_nil (acct : Account) (pid : String) :
    remove_keys_from_database acct pid [] = acct := by
  unfold remove_keys_from_database
  by_cases hp : (hasProject acct.projects pid) = true
  · rw [if_pos hp]
    rw [hasProject_eq_isSome] at hp
    obtain ⟨pe, hpe⟩ := Option.isSome_iff_exists.mp hp
    rw [updateFirstProject_eq_self acct.projects pid hpe
      (filter_not_contains_nil pe.api_keys)]
  · rw [if_neg hp]

theorem remove_eq_map (acct : Account) (pid : String) (uids : List String)
    (h : (acct.projects.map (fun pe => pe.project_info.project_id)).Nodup) :
    remove_keys_from_database acct pid uids =
      { acct with projects := acct.projects.map (fun pe =>
          if pe.project_info.project_id == pid then
            { pe with api_keys := pe.api_keys.filter (fun r =>
                !(uids.contains r.key_details.key_id)) }
          else pe) } := by
  unfold remove_keys_from_database
  by_cases hp : (hasProject acct.projects pid) = true
  · rw [if_pos hp, updateFirstProject_eq_map _ h]
  · rw [if_neg hp]
    have hnone : acct.projects.map (fun pe =>
        if pe.project_info.project_id == pid then
          { pe with api_keys := pe.api_keys.filter (fun r =>
              !(uids.contains r.key_details.key_id)) }
        else pe) = acct.projects := by
      conv_rhs => rw [← List.map_id acct.projects]
      apply List.map_congr_left
      intro pe hpe
      have := List.any_eq_false.mp (Bool.eq_false_iff.mpr hp) pe hpe
      rw [if_neg this]
      rfl
    rw [hnone]

/-- C6: for the delete action, exactly the records whose key_id is among
the uids returned by the deletion capability are removed from the
matching project entry; every other record, every project entry and the
account itself survive — stated as: the resulting account equals the
original with only the matching project's key list filtered. -/
theorem claim6_delete_frame
    (project : CloudProject) (env : CloudEnv) (dry_run : Bool)
    (acct : Account) (now : String)
    (hnd : (acct.projects.map (fun pe => pe.project_info.project_id)).Nodup) :
    process_project_for_action project Action.delete dry_run env acct now =
      ({ acct with projects := acct.projects.map (fun pe =>
           if pe.project_info.project_id == project.project_id then
             { pe with api_keys := pe.api_keys.filter (fun r =>
                 !((delete_api_keys project.project_id env
                     dry_run).1.contains r.key_details.key_id)) }
           else pe) },
       (delete_api_keys project.project_id env dry_run).2) := by
  simp only [process_project_for_action]
  by_cases hemp :
      ((delete_api_keys project.project_id env dry_run).1.isEmpty) = true
  · rw [if_pos hemp]
    have huids : (delete_api_keys project.project_id env dry_run).1 = [] :=
      List.isEmpty_iff.mp hemp
    rw [huids]
    refine Prod.ext ?_ rfl
    show acct = _
    have hid : acct.projects.map (fun pe =>
        if pe.project_info.project_id == project.project_id then
          { pe with api_keys := pe.api_keys.filter (fun r =>
              !((([] : List String)).contains r.key_details.key_id)) }
        else pe) = acct.projects := by
      conv_rhs => rw [← List.map_id acct.projects]
      apply List.map_congr_left
      intro pe _
      by_cases hh : (pe.project_info.project_id == project.project_id) = true
      · rw [if_pos hh, filter_not_contains_nil]
        rfl
      · rw [if_neg hh]
        rfl
    rw [hid]
  · rw [if_neg hemp]
    refine Prod.ext ?_ rfl
    exact remove_eq_map acct project.project_id _ hnd

/-- C10: with dry-run enabled, deleting still reports the uid of every
cloud key carrying the managed display name (issuing only the listing
call, never a delete call), and those records are removed from the
in-memory ledger; only the run-level persistence is skipped. -/
theorem claim10_dry_run_delete
    (project : CloudProject) (env : CloudEnv) (acct : Account)
    (now : String) (ks : List CloudKey)
    (hks : env.listKeys project.project_id = Except.ok ks) :
    delete_api_keys project.project_id env true =
      ((ks.filter (fun k =>
          k.display_name == GEMINI_API_KEY_DISPLAY_NAME)).map
        (fun k => k.uid),
       [CloudCall.listKeysCall project.project_id]) ∧
    (process_project_for_action project Action.delete true env acct
        now).1 =
      remove_keys_from_database acct project.project_id
        ((ks.filter (fun k =>
            k.display_name == GEMINI_API_KEY_DISPLAY_NAME)).map
          (fun k => k.uid)) ∧
    mainPersistsLedger true = false := by
  refine ⟨by rw [delete_ok hks, deleteWithKeys_dry], ?_, rfl⟩
  simp only [process_project_for_action, delete_ok hks, deleteWithKeys_dry]
  by_cases hemp : (((ks.filter (fun k =>
      k.display_name == GEMINI_API_KEY_DISPLAY_NAME)).map
        (fun k => k.uid)).isEmpty) = true
  · rw [if_pos hemp]
    have huids := List.isEmpty_iff.mp hemp
    rw [huids, remove_nil]
  · rw [if_neg hemp]

/-- C9: the delete action selects cloud keys only by the exact display
name "Gemini API Key": every reported uid belongs to such a key, a key
named "Generative Language API Key" is never deleted and its uid never
reported, while reconciliation nevertheless flags both display names as
an existing managed key. -/
theorem claim9_delete_display_name_scope
    (project : CloudProject) (env : CloudEnv) (dry_run : Bool)
    (acct : Account) (now : String) (ks : List CloudKey)
    (hks : env.listKeys project.project_id = Except.ok ks)
    (hnd : (ks.map (fun k => k.uid)).Nodup)
    (hnames : (ks.map (fun k => k.name)).Nodup) :
    (∀ u ∈ (delete_api_keys project.project_id env dry_run).1,
      ∃ k ∈ ks, k.uid = u ∧
        k.display_name = GEMINI_API_KEY_DISPLAY_NAME) ∧
    (∀ k ∈ ks,
      k.display_name = GENERATIVE_LANGUAGE_API_KEY_DISPLAY_NAME →
      k.uid ∉ (delete_api_keys project.project_id env dry_run).1 ∧
      CloudCall.deleteKeyCall k.name ∉
        (delete_api_keys project.project_id env dry_run).2 ∧
      (reconcile_project_keys project env dry_run acct now).1 = true) := by
  rw [delete_ok hks]
  have hmain : ∀ u ∈ (deleteWithKeys project.project_id env dry_run ks).1,
      ∃ k ∈ ks, k.uid = u ∧
        k.display_name = GEMINI_API_KEY_DISPLAY_NAME := by
    intro u hu
    simp only [deleteWithKeys] at hu
    by_cases hemp : ((ks.filter (fun k =>
        k.display_name == GEMINI_API_KEY_DISPLAY_NAME)).isEmpty) = true
    · rw [if_pos hemp] at hu
      exact absurd hu (List.not_mem_nil u)
    · rw [if_neg hemp] at hu
      by_cases hd : dry_run = true
      · rw [if_pos hd] at hu
        obtain ⟨k, hk, huid⟩ := List.mem_map.mp hu
        obtain ⟨hkks, hdisp⟩ := List.mem_filter.mp hk
        exact ⟨k, hkks, huid, beq_iff_eq.mp hdisp⟩
      · rw [if_neg hd] at hu
        obtain ⟨k, hk, hsome⟩ := List.mem_filterMap.mp hu
        obtain ⟨hkks, hdisp⟩ := List.mem_filter.mp hk
        cases hdel : env.deleteKey k.name with
        | ok v =>
          rw [hdel] at hsome
          have huid : k.uid = u := Option.some.inj hsome
          exact ⟨k, hkks, huid, beq_iff_eq.mp hdisp⟩
        | error e2 =>
          rw [hdel] at hsome
          exact absurd hsome (Option.noConfusion)
  refine ⟨hmain, ?_⟩
  intro k hk hgl
  have hne : k.display_name ≠ GEMINI_API_KEY_DISPLAY_NAME := by
    rw [hgl]
    intro hEq
    exact absurd hEq (by decide)
  refine ⟨?_, ?_, ?_⟩
  · intro hu
    obtain ⟨k', hk', huid, hdisp⟩ := hmain k.uid hu
    have : k' = k := List.inj_on_of_nodup_map hnd hk' hk huid
    exact hne (this ▸ hdisp)
  · intro hc
    simp only [deleteWithKeys] at hc
    by_cases hemp : ((ks.filter (fun k =>
        k.display_name == GEMINI_API_KEY_DISPLAY_NAME)).isEmpty) = true
    · rw [if_pos hemp] at hc
      rcases List.mem_cons.mp hc with hc | hc
      · exact CloudCall.noConfusion hc
      · exact absurd hc (List.not_mem_nil _)
    · rw [if_neg hemp] at hc
      by_cases hd : dry_run = true
      · rw [if_pos hd] at hc
        rcases List.mem_cons.mp hc with hc | hc
        · exact CloudCall.noConfusion hc
        · exact absurd hc (List.not_mem_nil _)
      · rw [if_neg hd] at hc
        rcases List.mem_cons.mp hc with hc | hc
        · exact CloudCall.noConfusion hc
        · obtain ⟨k', hk', hcall⟩ := List.mem_map.mp hc
          obtain ⟨hkks', hdisp'⟩ := List.mem_filter.mp hk'
          have hname : k'.name = k.name := by
            injection hcall
          have : k' = k :=
            List.inj_on_of_nodup_map hnames hkks' hk hname
          exact hne (this ▸ beq_iff_eq.mp hdisp')
  · rw [reconcile_ok hks]
    show managedFlag ks = true
    rw [managedFlag, List.any_eq_true]
    refine ⟨k, hk, ?_⟩
    rw [hgl]
    simp [GENERATIVE_LANGUAGE_API_KEY_DISPLAY_NAME]

/-- C4: every ledger record of the project that the cloud no longer
lists is kept (its key id stays in place, nothing is removed), set to
INACTIVE with its last-updated timestamp refreshed; and with an empty
cloud listing the reconciliation flag is false. -/
theorem claim4_deactivation_non_destructive
    (project : CloudProject) (env : CloudEnv) (acct : Account)
    (now : String) (ks : List CloudKey) (pe : ProjectEntry)
    (flag : Bool) (acct2 : Account) (calls : List CloudCall)
    (hks : env.listKeys project.project_id = Except.ok ks)
    (hf : findProjectEntry acct.projects project.project_id = some pe)
    (hnd : (keyIds pe.api_keys).Nodup)
    (hres : reconcile_project_keys project env false acct now =
      (flag, acct2, calls)) :
    ∃ pe', findProjectEntry acct2.projects project.project_id = some pe' ∧
      (∃ ext, keyIds pe'.api_keys = keyIds pe.api_keys ++ ext) ∧
      (∀ r ∈ pe.api_keys,
        r.key_details.key_id ∉ ks.map (fun k => k.uid) →
        deactRecord r now ∈ pe'.api_keys) ∧
      (ks = [] → flag = false) := by
  rw [reconcile_ok hks,
    reconcileWithKeys_spec project env acct now ks pe hf hnd] at hres
  injection hres with hflag hrest
  injection hrest with hacct hcalls
  subst hflag
  subst hacct
  refine ⟨{ pe with api_keys :=
      ((pe.api_keys ++ fetchAddedKeys env (keyIds pe.api_keys)
        (pyDedupKeysLastWins ks)).map
        (deactIfIn (localOnlyOf (keyIds pe.api_keys)
          ((pyDedupKeysLastWins ks).map (fun k => k.uid))) now)) },
    ?_, ?_, ?_, ?_⟩
  · try simp only []
    rw [find_updateFirstProject, hf]
    rfl
  · refine ⟨keyIds (fetchAddedKeys env (keyIds pe.api_keys)
      (pyDedupKeysLastWins ks)), ?_⟩
    try simp only []
    rw [keyIds_map_deactIfIn, keyIds_append]
  · intro r hr hout
    simp only []
    have hmemlo : r.key_details.key_id ∈
        localOnlyOf (keyIds pe.api_keys)
          ((pyDedupKeysLastWins ks).map (fun k => k.uid)) := by
      unfold localOnlyOf
      refine List.mem_filter.mpr ⟨?_, ?_⟩
      · exact mem_pyDictKeys.mpr (mem_keyIds.mpr ⟨r, hr, rfl⟩)
      · have hnc : (((pyDedupKeysLastWins ks).map
            (fun k => k.uid)).contains r.key_details.key_id) = false := by
          rw [Bool.eq_false_iff]
          intro hcc
          exact hout (mem_pyDedup_uid.mp (List.elem_iff.mp hcc))
        rw [hnc]
        rfl
    have hval : deactIfIn (localOnlyOf (keyIds pe.api_keys)
        ((pyDedupKeysLastWins ks).map (fun k => k.uid))) now r =
        deactRecord r now := by
      rw [deactIfIn_eq, if_pos hmemlo]
    exact hval ▸ List.mem_map_of_mem _ (List.mem_append_left _ hr)
  · intro hEq
    subst hEq
    rfl

/-- C5: with no ledger entry for the project and the cloud listing a
single key with the managed display name whose secret fetch succeeds,
reconciliation returns true and the ledger gains a project entry holding
exactly one ACTIVE record for that key. -/
theorem claim5_cloud_only_adoption
    (project : CloudProject) (env : CloudEnv) (acct : Account)
    (now : String) (k : CloudKey) (s : String)
    (flag : Bool) (acct2 : Account) (calls : List CloudCall)
    (hnp : hasProject acct.projects project.project_id = false)
    (hks : env.listKeys project.project_id = Except.ok [k])
    (hdn : k.display_name = GEMINI_API_KEY_DISPLAY_NAME)
    (hgs : env.getKeyString k.name = Except.ok s)
    (hres : reconcile_project_keys project env false acct now =
      (flag, acct2, calls)) :
    flag = true ∧
    findProjectEntry acct2.projects project.project_id =
      some { project_info := mkProjectInfo project,
             api_keys := [mkNewKeyEntry (mkTempKey k s)] } ∧
    (mkNewKeyEntry (mkTempKey k s)).state = "ACTIVE" := by
  have hfr : findProjectEntry
      (acct.projects ++
        [{ project_info := mkProjectInfo project, api_keys := [] }])
      project.project_id =
      some { project_info := mkProjectInfo project, api_keys := [] } :=
    find_append_right hnp _ (beq_iff_eq.mpr rfl)
  rw [reconcile_ok hks,
    reconcileWithKeys_ensure_entry project env false acct now [k] hnp,
    reconcileWithKeys_spec project env _ now [k]
      { project_info := mkProjectInfo project, api_keys := [] }
      hfr List.nodup_nil] at hres
  injection hres with hflag hrest
  injection hrest with hacct hcalls
  subst hflag
  subst hacct
  have hadded : fetchAddedKeys env
      (keyIds ([] : List ApiKeyRecord)) (pyDedupKeysLastWins [k]) =
      [mkNewKeyEntry (mkTempKey k s)] := by
    have hc : ¬((([] : List String)).contains k.uid) = true :=
      fun hcc => Bool.false_ne_true hcc
    show fetchAddedKeys env [] [k] = _
    simp only [fetchAddedKeys, List.filterMap_cons, if_neg hc, hgs,
      List.filterMap_nil]
  refine ⟨?_, ?_, rfl⟩
  · show managedFlag [k] = true
    rw [managedFlag, List.any_eq_true]
    refine ⟨k, List.mem_cons_self _ _, ?_⟩
    rw [hdn]
    simp [GEMINI_API_KEY_DISPLAY_NAME]
  · try simp only []
    rw [find_updateFirstProject, hfr]
    show some _ = some _
    rw [Option.some.injEq]
    try simp only []
    rw [List.nil_append, hadded, List.map_cons, List.map_nil]
    have hlo : deactIfIn (localOnlyOf (keyIds ([] : List ApiKeyRecord))
        ((pyDedupKeysLastWins [k]).map (fun k => k.uid))) now
        (mkNewKeyEntry (mkTempKey k s)) =
        mkNewKeyEntry (mkTempKey k s) := by
      rw [deactIfIn_eq, if_neg]
      intro hm
      unfold localOnlyOf at hm
      have := (List.mem_filter.mp hm).1
      rw [mem_pyDictKeys] at this
      exact List.not_mem_nil _ this
    rw [hlo]

/-! ## Lemmas for the second reconciliation run -/

theorem deactIfIn_comp (us : List String) (now now2 : String)
    (r : ApiKeyRecord) :
    deactIfIn us now2 (deactIfIn us now r) = deactIfIn us now2 r := by
  by_cases h : r.key_details.key_id ∈ us
  · have h1 : deactIfIn us now r = deactRecord r now := by
      rw [deactIfIn_eq, if_pos h]
    have h2 : deactIfIn us now2 r = deactRecord r now2 := by
      rw [deactIfIn_eq, if_pos h]
    have h3 : deactIfIn us now2 (deactRecord r now) =
        deactRecord (deactRecord r now) now2 := by
      rw [deactIfIn_eq, if_pos (by rw [deactRecord_key_id]; exact h)]
    rw [h1, h3, h2]
    rfl
  · have h1 : deactIfIn us now r = r := by
      rw [deactIfIn_eq, if_neg h]
    rw [h1]

theorem map_updateFirstProject_of_preserve {β : Type}
    (h : ProjectEntry → β) :
    ∀ (ps : List ProjectEntry) (pid : String)
      (f : List ApiKeyRecord → List ApiKeyRecord),
      (∀ pe, findProjectEntry ps pid = some pe →
        h { pe with api_keys := f pe.api_keys } = h pe) →
      (updateFirstProject ps pid f).map h = ps.map h := by
  intro ps
  induction ps with
  | nil => intro pid f _; rfl
  | cons pe0 rest ih =>
    intro pid f hpres
    unfold updateFirstProject
    by_cases hh : (pe0.project_info.project_id == pid) = true
    · rw [if_pos hh, List.map_cons, List.map_cons]
      have : findProjectEntry (pe0 :: rest) pid = some pe0 := by
        simp [findProjectEntry, List.find?, hh]
      rw [hpres pe0 this]
    · rw [if_neg hh, List.map_cons, List.map_cons]
      rw [ih pid f ?_]
      intro pe hpe
      apply hpres
      simpa [findProjectEntry, List.find?, hh] using hpe

theorem fetchAddedKeys_second_empty (env : CloudEnv) (L : List String)
    (ds : List CloudKey) :
    fetchAddedKeys env (L ++ keyIds (fetchAddedKeys env L ds)) ds = [] := by
  refine List.filterMap_eq_nil_iff.mpr ?_
  intro k hk
  try simp only []
  by_cases hc : (((L ++ keyIds (fetchAddedKeys env L ds))).contains
      k.uid) = true
  · rw [if_pos hc]
  · rw [if_neg hc]
    have hnm : k.uid ∉ L ∧ k.uid ∉ keyIds (fetchAddedKeys env L ds) := by
      constructor
      · intro hm
        exact hc (List.elem_iff.mpr (List.mem_append_left _ hm))
      · intro hm
        exact hc (List.elem_iff.mpr (List.mem_append_right _ hm))
    cases hgs : env.getKeyString k.name with
    | ok s =>
      exfalso
      refine hnm.2 (mem_keyIds_fetchAddedKeys.mpr ⟨k, hk, rfl, ?_, s, hgs⟩)
      rw [Bool.eq_false_iff]
      intro hcc
      exact hnm.1 (List.elem_iff.mp hcc)
    | error e => rfl

theorem localOnlyOf_append_covered (L extraIds cloudUids : List String)
    (hsub : ∀ u ∈ extraIds, u ∈ cloudUids) :
    localOnlyOf (L ++ extraIds) cloudUids = localOnlyOf L cloudUids := by
  unfold localOnlyOf
  obtain ⟨extras, he, hm⟩ := pyDictKeys_append L extraIds
  rw [he, List.filter_append]
  have hnil : extras.filter (fun u => !(cloudUids.contains u)) = [] := by
    rw [List.filter_eq_nil_iff]
    intro u hu
    have hmm : u ∈ cloudUids := hsub u (hm u hu)
    simp [hmm]
  rw [hnil, List.append_nil]

theorem state_of_mem_deactMap {lo : List String} {now : String}
    {keys : List ApiKeyRecord} {r : ApiKeyRecord}
    (hr : r ∈ keys.map (deactIfIn lo now))
    (hmem : r.key_details.key_id ∈ lo) : r.state = "INACTIVE" := by
  obtain ⟨r0, _, hEq⟩ := List.mem_map.mp hr
  subst hEq
  rw [deactIfIn_key_id] at hmem
  rw [deactIfIn_eq, if_pos hmem]
  rfl

theorem reconcile_twice_found
    (project : CloudProject) (env : CloudEnv) (acct : Account)
    (now now2 : String) (ks : List CloudKey) (pe : ProjectEntry)
    (flag1 flag2 : Bool) (acct1 acct3 : Account)
    (calls1 calls2 : List CloudCall)
    (hls : env.listKeys project.project_id = Except.ok ks)
    (hf : findProjectEntry acct.projects project.project_id = some pe)
    (hnd : (keyIds pe.api_keys).Nodup)
    (hres1 : reconcile_project_keys project env false acct now =
      (flag1, acct1, calls1))
    (hres2 : reconcile_project_keys project env false acct1 now2 =
      (flag2, acct3, calls2)) :
    flag2 = flag1 ∧
    acct3.projects.map entrySummary = acct1.projects.map entrySummary ∧
    (now2 = now → acct3 = acct1) := by
  rw [reconcile_ok hls,
    reconcileWithKeys_spec project env acct now ks pe hf hnd] at hres1
  injection hres1 with hflag1 hrest1
  injection hrest1 with hacct1 hcalls1
  subst hflag1
  subst hacct1
  set L := keyIds pe.api_keys with hLdef
  set D := pyDedupKeysLastWins ks with hDdef
  set cu := D.map (fun k => k.uid) with hcuDef
  set added := fetchAddedKeys env L D with hAdef
  set lo := localOnlyOf L cu with hLodef
  have hf1 : findProjectEntry
      (updateFirstProject acct.projects project.project_id
        (fun keys => (keys ++ added).map (deactIfIn lo now)))
      project.project_id =
      some { pe with api_keys :=
        ((pe.api_keys ++ added).map (deactIfIn lo now)) } := by
    rw [find_updateFirstProject, hf]
    rfl
  have hids1 : keyIds ((pe.api_keys ++ added).map (deactIfIn lo now)) =
      L ++ keyIds added := by
    rw [keyIds_map_deactIfIn, keyIds_append]
  have hnd1 : (keyIds ((pe.api_keys ++ added).map
      (deactIfIn lo now))).Nodup := by
    rw [keyIds_map_deactIfIn]
    exact nodup_appended_ids hnd (nodup_pyDedup_uids ks)
  rw [reconcile_ok hls,
    reconcileWithKeys_spec project env _ now2 ks
      ({ pe with api_keys :=
        ((pe.api_keys ++ added).map (deactIfIn lo now)) })
      hf1 hnd1] at hres2
  injection hres2 with hflag2 hrest2
  injection hrest2 with hacct3 hcalls2
  subst hflag2
  subst hacct3
  have hL2 : keyIds ({ pe with api_keys :=
      ((pe.api_keys ++ added).map (deactIfIn lo now)) } :
      ProjectEntry).api_keys = L ++ keyIds added := hids1
  have hadded2 : fetchAddedKeys env (L ++ keyIds added) D = [] :=
    fetchAddedKeys_second_empty env L D
  have hsubcu : ∀ u ∈ keyIds added, u ∈ cu := by
    intro u hu
    obtain ⟨k, hkD, huid, _, _⟩ := mem_keyIds_fetchAddedKeys.mp hu
    exact huid ▸ List.mem_map_of_mem _ hkD
  have hlo2 : localOnlyOf (L ++ keyIds added) cu = lo := by
    rw [localOnlyOf_append_covered L (keyIds added) cu hsubcu]
  simp only [hL2, hadded2, hlo2, List.append_nil]
  refine ⟨by trivial, ?_, ?_⟩
  · try simp only []
    apply map_updateFirstProject_of_preserve entrySummary
    intro pe' hpe'
    have hpe1 := Option.some.inj (hf1.symm.trans hpe')
    subst hpe1
    unfold entrySummary
    try simp only []
    refine Prod.ext rfl (Prod.ext ?_ ?_)
    · try simp only []
      rw [keyIds_map_deactIfIn]
    · try simp only []
      rw [List.map_map]
      apply List.map_congr_left
      intro r hrX
      show (deactIfIn lo now2 r).state = r.state
      apply deactIfIn_state
      intro hmem
      exact state_of_mem_deactMap hrX hmem
  · intro hnow
    subst hnow
    show Account.mk acct.email
        (updateFirstProject
          (updateFirstProject acct.projects project.project_id
            (fun keys => (keys ++ added).map (deactIfIn lo now2)))
          project.project_id
          (fun keys => keys.map (deactIfIn lo now2))) =
      Account.mk acct.email
        (updateFirstProject acct.projects project.project_id
          (fun keys => (keys ++ added).map (deactIfIn lo now2)))
    refine congrArg _ ?_
    rw [updateFirstProject_comp]
    apply updateFirstProject_congr acct.projects project.project_id hf
    try simp only []
    rw [List.map_map]
    apply List.map_congr_left
    intro r _
    show deactIfIn lo now2 (deactIfIn lo now2 r) = deactIfIn lo now2 r
    exact deactIfIn_comp lo now2 now2 r

/-- C2 (amended): with unchanged cloud state (dry-run false) and a
ledger satisfying the unique-key_id invariant, a second reconciliation
returns the same flag, adds no key records and flips no state (every
project's info, key-id list and state list are unchanged); with the
same timestamp input the ledger is exactly unchanged.  (With a
different timestamp input only the last-updated timestamps of
ledger-only records are refreshed, which is why plain ledger equality
fails.) -/
theorem claim2_reconcile_idempotent_amended
    (project : CloudProject) (env : CloudEnv) (acct : Account)
    (now now2 : String)
    (flag1 flag2 : Bool) (acct1 acct3 : Account)
    (calls1 calls2 : List CloudCall)
    (hinv : DbInvariant acct)
    (hres1 : reconcile_project_keys project env false acct now =
      (flag1, acct1, calls1))
    (hres2 : reconcile_project_keys project env false acct1 now2 =
      (flag2, acct3, calls2)) :
    flag2 = flag1 ∧
    acct3.projects.map entrySummary = acct1.projects.map entrySummary ∧
    (now2 = now → acct3 = acct1) := by
  cases hls : env.listKeys project.project_id with
  | error e =>
    rw [reconcile_listFail hls] at hres1
    injection hres1 with h1 hr1
    injection hr1 with h2 h3
    subst h1
    subst h2
    rw [reconcile_listFail hls] at hres2
    injection hres2 with h4 hr2
    injection hr2 with h5 h6
    subst h4
    subst h5
    exact ⟨rfl, rfl, fun _ => rfl⟩
  | ok ks =>
    by_cases hp : (hasProject acct.projects project.project_id) = true
    · rw [hasProject_eq_isSome] at hp
      obtain ⟨pe, hpe⟩ := Option.isSome_iff_exists.mp hp
      exact reconcile_twice_found project env acct now now2 ks pe
        _ _ _ _ _ _ hls hpe (hinv pe (List.mem_of_find?_eq_some hpe))
        hres1 hres2
    · have hp' : hasProject acct.projects project.project_id = false :=
        Bool.eq_false_iff.mpr hp
      rw [reconcile_ok hls,
        reconcileWithKeys_ensure_entry project env false acct now ks hp',
        ← reconcile_ok hls] at hres1
      have hfB := find_append_right hp'
        ({ project_info := mkProjectInfo project, api_keys := [] })
        (beq_iff_eq.mpr rfl)
      exact reconcile_twice_found project env
        ({ acct with projects := acct.projects ++
          [{ project_info := mkProjectInfo project, api_keys := [] }] })
        now now2 ks
        ({ project_info := mkProjectInfo project, api_keys := [] })
        _ _ _ _ _ _ hls hfB List.nodup_nil hres1 hres2

/-! ## Safety and progress of the ToS gate -/

theorem gateInv_init (n : Nat) : GateInv (gateInit n) :=
  ⟨fun _ => rfl, Nat.zero_le 1, fun h => Bool.noConfusion h,
   fun _ hj => WorkerState.noConfusion hj⟩

theorem gateInv_step {n : Nat} {s s' : GateState n}
    (hs : GateInv s) (h : GateStep s s') : GateInv s' := by
  cases h with
  | prompt i hw hp =>
    refine ⟨fun hfp => Bool.noConfusion hfp, ?_, fun _ => rfl,
      fun _ _ => rfl⟩
    show s.prompt_count + 1 ≤ 1
    rw [hs.1 hp]
  | observe i hw hp =>
    refine ⟨hs.1, hs.2.1, hs.2.2.1, ?_⟩
    intro j _
    exact hs.2.2.1 hp
  | proceed i hw he =>
    exact ⟨hs.1, hs.2.1, hs.2.2.1, fun _ _ => he⟩

theorem gateInv_reachable {n : Nat} {s : GateState n}
    (h : GateReachable n s) : GateInv s := by
  induction h with
  | init => exact gateInv_init n
  | step _ hstep ih => exact gateInv_step ih hstep

theorem gateAll_progress (n : Nat) :
    ∀ (l : List (Fin n)) (f : Fin n → WorkerState),
      (∀ i, i ∉ l → f i = WorkerState.retrying) →
      Relation.ReflTransGen GateStep (gateAll n f)
        (gateAll n (fun _ => WorkerState.retrying)) := by
  intro l
  induction l with
  | nil =>
    intro f hf
    have : f = fun _ => WorkerState.retrying :=
      funext (fun i => hf i (List.not_mem_nil i))
    rw [this]
  | cons j l' ih =>
    intro f hf
    have hrest : ∀ g : Fin n → WorkerState, g j = WorkerState.retrying →
        (∀ i, i ∉ j :: l' → g i = f i) →
        (∀ i, i ∉ l' → g i = WorkerState.retrying) := by
      intro g hgj hagree i hi
      by_cases hij : i = j
      · rw [hij]
        exact hgj
      · have hic : i ∉ j :: l' := by
          intro hm
          rcases List.mem_cons.mp hm with hm | hm
          · exact hij hm
          · exact hi hm
        rw [hagree i hic]
        exact hf i hic
    cases hj : f j with
    | retrying =>
      exact ih f (hrest f hj (fun _ _ => rfl))
    | caughtToS =>
      have st1 : GateStep (gateAll n f)
          (gateAll n (Function.update f j WorkerState.waiting)) :=
        GateStep.observe (gateAll n f) j hj rfl
      have st2 : GateStep (gateAll n (Function.update f j WorkerState.waiting))
          (gateAll n (Function.update f j WorkerState.retrying)) := by
        have hupd : Function.update
            (Function.update f j WorkerState.waiting) j
            WorkerState.retrying = Function.update f j WorkerState.retrying := by
          funext i
          by_cases hij : i = j
          · subst hij
            rw [Function.update_same, Function.update_same]
          · rw [Function.update_noteq hij, Function.update_noteq hij,
              Function.update_noteq hij]
        have := GateStep.proceed
          (gateAll n (Function.update f j WorkerState.waiting)) j
          (by exact Function.update_same j WorkerState.waiting f) rfl
        rw [show ({ gateAll n (Function.update f j WorkerState.waiting) with
            workers := Function.update
              (gateAll n (Function.update f j WorkerState.waiting)).workers j
              WorkerState.retrying } : GateState n) =
          gateAll n (Function.update f j WorkerState.retrying) from
            congrArg (gateAll n) hupd] at this
        exact this
      refine Relation.ReflTransGen.head st1
        (Relation.ReflTransGen.head st2
          (ih (Function.update f j WorkerState.retrying) ?_))
      refine hrest (Function.update f j WorkerState.retrying)
        (Function.update_same j WorkerState.retrying f) ?_
      intro i hic
      have hij : i ≠ j := fun hm => hic (hm ▸ List.mem_cons_self _ _)
      rw [Function.update_noteq hij]
    | waiting =>
      have st2 : GateStep (gateAll n f)
          (gateAll n (Function.update f j WorkerState.retrying)) :=
        GateStep.proceed (gateAll n f) j hj rfl
      refine Relation.ReflTransGen.head st2
        (ih (Function.update f j WorkerState.retrying) ?_)
      refine hrest (Function.update f j WorkerState.retrying)
        (Function.update_same j WorkerState.retrying f) ?_
      intro i hic
      have hij : i ≠ j := fun hm => hic (hm ▸ List.mem_cons_self _ _)
      rw [Function.update_noteq hij]

theorem gate_completion (n : Nat) (hn : 0 < n) :
    ∃ t, Relation.ReflTransGen (@GateStep n) (gateInit n) t ∧
      (∀ i, t.workers i = WorkerState.retrying) ∧ t.prompt_count = 1 := by
  have st0 : GateStep (gateInit n)
      (gateAll n (Function.update (fun _ => WorkerState.caughtToS)
        ⟨0, hn⟩ WorkerState.waiting)) :=
    GateStep.prompt (gateInit n) ⟨0, hn⟩ rfl rfl
  refine ⟨gateAll n (fun _ => WorkerState.retrying),
    Relation.ReflTransGen.head st0
      (gateAll_progress n (List.finRange n) _ ?_),
    fun _ => rfl, rfl⟩
  intro i hi
  exact absurd (List.mem_finRange i) hi

/-- C3: on the ToS gate transition system, every reachable state has at
most one prompt issued (only the first worker to enter the critical
section with the flag down prompts); any waiting worker can always take
its step to retrying (the one-shot event is set whenever someone
waits); and from the initial all-failed state there is a run in which
every worker reaches the retry, with exactly one prompt issued. -/
theorem claim3_single_prompt_gate (n : Nat) (s : GateState n)
    (h : GateReachable n s) :
    s.prompt_count ≤ 1 ∧
    (∀ i, s.workers i = WorkerState.waiting →
      GateStep s { s with
        workers := Function.update s.workers i WorkerState.retrying }) ∧
    (0 < n → ∃ t,
      Relation.ReflTransGen (@GateStep n) (gateInit n) t ∧
      (∀ i, t.workers i = WorkerState.retrying) ∧ t.prompt_count = 1) := by
  have hinv := gateInv_reachable h
  refine ⟨hinv.2.1, ?_, gate_completion n⟩
  intro i hi
  exact GateStep.proceed s i hi (hinv.2.2.2 i hi)

/-- Witness for C3 at two workers: the initial state is reachable, the
prompt bound holds there, and the completing run exists. -/
theorem claim3_witness :
    (gateInit 2).prompt_count ≤ 1 ∧
    (0 < 2 → ∃ t,
      Relation.ReflTransGen (@GateStep 2) (gateInit 2) t ∧
      (∀ i, t.workers i = WorkerState.retrying) ∧ t.prompt_count = 1) := by
  have h := claim3_single_prompt_gate 2 (gateInit 2) GateReachable.init
  exact ⟨h.1, h.2.2⟩

/-- C1: key insertion is gated by the per-project key_id check — when a
record with the same key_id already exists in the (first) matching
project entry, `add_key_to_database` leaves the account unchanged — and
both insertion and reconciliation preserve the at-most-one-record-per-
key_id invariant. -/
theorem claim1_no_duplicate_key_ids
    (acct : Account) (project : CloudProject) (k : TempKey)
    (env : CloudEnv) (dry_run : Bool) (now : String) :
    (DbInvariant acct → DbInvariant (add_key_to_database acct project k)) ∧
    (∀ pe, findProjectEntry acct.projects project.project_id = some pe →
      (pe.api_keys.any (fun r => r.key_details.key_id == k.uid)) = true →
      add_key_to_database acct project k = acct) ∧
    (DbInvariant acct →
      DbInvariant (reconcile_project_keys project env dry_run acct
        now).2.1) :=
  ⟨DbInvariant_add acct project k,
   fun _ hf hex => add_unchanged_of_existing hf hex,
   DbInvariant_reconcile project env dry_run acct now⟩

/-- Witness for C1: re-adding the already-recorded key `k1` leaves the
sample account unchanged and the invariant is preserved through both
operations. -/
theorem claim1_witness :
    DbInvariant wAcctK1 ∧
    DbInvariant (add_key_to_database wAcctK1 wProj (mkTempKey wKeyG "s2")) ∧
    add_key_to_database wAcctK1 wProj (mkTempKey wKeyG "s2") = wAcctK1 ∧
    DbInvariant
      (reconcile_project_keys wProj wEnvNoKeys false wAcctK1 "t1").2.1 := by
  have hinv : DbInvariant wAcctK1 := by
    show ∀ pe ∈ wAcctK1.projects, (keyIds pe.api_keys).Nodup
    decide
  have h := claim1_no_duplicate_key_ids wAcctK1 wProj
    (mkTempKey wKeyG "s2") wEnvNoKeys false "t1"
  exact ⟨hinv, h.1 hinv, h.2.1 wEntryK1 (by decide) (by decide),
    h.2.2 hinv⟩

/-- Counterexample for C2 as stated: with the ledger holding an ACTIVE
record for `k1`, a cloud listing no keys, and distinct timestamp inputs
for the two runs, the ledger after the second reconciliation differs
from the ledger after the first (the ledger-only record's last-updated
timestamp is rewritten), so strict ledger equality fails. -/
theorem claim2_counterexample :
    ¬((reconcile_project_keys wProj wEnvNoKeys false
        (reconcile_project_keys wProj wEnvNoKeys false wAcctK1
          "t1").2.1 "t2").2.1 =
      (reconcile_project_keys wProj wEnvNoKeys false wAcctK1
        "t1").2.1) := by
  decide

/-- Witness for C2 (amended) at the same sample data with equal
timestamp inputs: the two runs agree and the ledger is unchanged by the
second. -/
theorem claim2_witness :
    DbInvariant wAcctK1 ∧
    ((reconcile_project_keys wProj wEnvNoKeys false
        (reconcile_project_keys wProj wEnvNoKeys false wAcctK1
          "t1").2.1 "t1").2.1 =
      (reconcile_project_keys wProj wEnvNoKeys false wAcctK1
        "t1").2.1) := by
  have hinv : DbInvariant wAcctK1 := by
    show ∀ pe ∈ wAcctK1.projects, (keyIds pe.api_keys).Nodup
    decide
  have h := claim2_reconcile_idempotent_amended wProj wEnvNoKeys wAcctK1
    "t1" "t1" _ _ _ _ _ _ hinv rfl rfl
  exact ⟨hinv, h.2.2 rfl⟩

/-- Witness for C4 at the spec's scenario: ledger has `p1/k1` ACTIVE,
cloud reports no keys — reconcile returns false and the record is
retained as INACTIVE with the refreshed timestamp. -/
theorem claim4_witness :
    (keyIds wEntryK1.api_keys).Nodup ∧
    (∃ pe', findProjectEntry
        ((reconcile_project_keys wProj wEnvNoKeys false wAcctK1
          "t2").2.1).projects wProj.project_id = some pe' ∧
      (∃ ext, keyIds pe'.api_keys = keyIds wEntryK1.api_keys ++ ext) ∧
      (∀ r ∈ wEntryK1.api_keys,
        r.key_details.key_id ∉ ([] : List CloudKey).map (fun k => k.uid) →
        deactRecord r "t2" ∈ pe'.api_keys) ∧
      (([] : List CloudKey) = [] →
        (reconcile_project_keys wProj wEnvNoKeys false wAcctK1
          "t2").1 = false)) := by
  refine ⟨by decide, ?_⟩
  exact claim4_deactivation_non_destructive wProj wEnvNoKeys wAcctK1 "t2"
    [] wEntryK1 _ _ _ rfl (by decide) (by decide) rfl

/-- Witness for C5 at the spec's scenario: empty ledger, cloud has
`p1/k1` named "Gemini API Key" — reconcile returns true and the ledger
gains `p1` with one ACTIVE record for `k1`. -/
theorem claim5_witness :
    hasProject wAcctEmpty.projects wProj.project_id = false ∧
    ((reconcile_project_keys wProj wEnvK1 false wAcctEmpty "t1").1 = true ∧
     findProjectEntry
        ((reconcile_project_keys wProj wEnvK1 false wAcctEmpty
          "t1").2.1).projects wProj.project_id =
       some { project_info := mkProjectInfo wProj,
              api_keys := [mkNewKeyEntry (mkTempKey wKeyG "secret1")] }) := by
  have h := claim5_cloud_only_adoption wProj wEnvK1 wAcctEmpty "t1"
    wKeyG "secret1" _ _ _ rfl rfl rfl rfl rfl
  exact ⟨rfl, h.1, h.2.1⟩

/-- Witness for C6: deleting in the sample ledger removes exactly the
`k1` record while the project and account rows survive. -/
theorem claim6_witness :
    (wAcctK1.projects.map (fun pe => pe.project_info.project_id)).Nodup ∧
    process_project_for_action wProj Action.delete false wEnvK1 wAcctK1
        "t1" =
      ({ wAcctK1 with projects := wAcctK1.projects.map (fun pe =>
           if pe.project_info.project_id == wProj.project_id then
             { pe with api_keys := pe.api_keys.filter (fun r =>
                 !((delete_api_keys wProj.project_id wEnvK1
                     false).1.contains r.key_details.key_id)) }
           else pe) },
       (delete_api_keys wProj.project_id wEnvK1 false).2) :=
  ⟨by decide,
   claim6_delete_frame wProj wEnvK1 false wAcctK1 "t1" (by decide)⟩

/-- Witness for C8: a permission-denied listing leaves the sample
account untouched, returns false, and the create flow still reaches the
enablement call. -/
theorem claim8_witness :
    wEnvFail.listKeys wProj.project_id =
      Except.error GError.permissionDenied ∧
    (reconcile_project_keys wProj wEnvFail false wAcctK1 "t1" =
      (false, wAcctK1, [CloudCall.listKeysCall wProj.project_id]) ∧
     ((process_project_for_action wProj Action.create false wEnvFail
        wAcctK1 "t1").2.contains
       (CloudCall.enableApiCall wProj.project_id)) = true) :=
  ⟨rfl, claim8_listing_failure_nonfatal wProj wEnvFail wAcctK1 "t1"
    GError.permissionDenied rfl⟩

/-- Witness for C9: with both display names in the cloud, the
"Generative Language API Key" `k2` is neither deleted nor reported,
while reconciliation still flags an existing managed key. -/
theorem claim9_witness :
    wKeyGL.uid ∉ (delete_api_keys wProj.project_id wEnvBoth false).1 ∧
    CloudCall.deleteKeyCall wKeyGL.name ∉
      (delete_api_keys wProj.project_id wEnvBoth false).2 ∧
    (reconcile_project_keys wProj wEnvBoth false wAcctK1 "t1").1 = true := by
  have h := claim9_delete_display_name_scope wProj wEnvBoth false wAcctK1
    "t1" [wKeyG, wKeyGL] rfl (by decide) (by decide)
  exact h.2 wKeyGL (by decide) rfl

/-- Witness for C10: a dry-run delete on the sample data reports `k1`
without issuing a delete call, and the in-memory ledger loses the `k1`
record while persistence is skipped. -/
theorem claim10_witness :
    delete_api_keys wProj.project_id wEnvK1 true =
      (["k1"], [CloudCall.listKeysCall wProj.project_id]) ∧
    (process_project_for_action wProj Action.delete true wEnvK1 wAcctK1
        "t1").1 =
      remove_keys_from_database wAcctK1 wProj.project_id ["k1"] ∧
    mainPersistsLedger true = false := by
  have h := claim10_dry_run_delete wProj wEnvK1 wAcctK1 "t1" [wKeyG] rfl
  exact ⟨h.1, h.2.1, h.2.2⟩

end GeminiKM
